import Mathlib

/-!
Verification of the Doris vectorized sort operator (`VSortNode`,
`vec/exec/vsort_node.cpp`) against its natural-language specification.

The operator is shallowly embedded: blocks are lists of rows, a row is a
list of nullable integer cells, and the comparator, buffering, top-N
admission, k-way merge reader and limit/offset handling of the source are
translated into executable Lean functions.  Components of the repository
whose code is not part of the excerpt (the `sort_block` routine, the
`Block`/`MutableBlock` primitives, `ExecNode::reached_limit`, the cursor
comparators) are modelled from the specification's words and marked as such.
-/

/-- A cell of a column: a nullable integer value. -/
abbrev Cell := Option Int

/-- A row of a block, column-major data transposed to row view. -/
abbrev Row := List Cell

/-- One entry of a `SortDescription`, mirroring
`SortColumnDescription {column_number, direction, nulls_direction}`. -/
structure SortColumnDescription where
  column_number : Nat
  direction : Int
  nulls_direction : Int
deriving Repr, DecidableEq

/-- An ordered list of sort keys, major key first. -/
abbrev SortDescription := List SortColumnDescription

/-- Three-way integer comparison: -1, 0 or 1. -/
def threeWayCmp (a b : Int) : Int :=
  if a < b then -1 else if b < a then 1 else 0

/-- Cell of a row at a column index; columns outside the row read as null. -/
def getCell (r : Row) (i : Nat) : Cell := r.getD i none

/-- Modelled from the spec: the per-column comparator of §4.1.  Both cells
non-null compare natively scaled by `direction`; a single null compares as
`nulls_direction` (when the left is the null); two nulls tie.  The column
`compare_at` implementation itself is not part of the excerpt. -/
def compareCell (dir nd : Int) : Cell → Cell → Int
  | none, none => 0
  | none, some _ => nd
  | some _, none => -nd
  | some a, some b => threeWayCmp a b * dir

/-- Lexicographic row comparison under a `SortDescription`: the first key
with a non-zero cell comparison decides. -/
def compareRows (desc : SortDescription) (a b : Row) : Int :=
  match desc with
  | [] => 0
  | k :: rest =>
    if compareCell k.direction k.nulls_direction
        (getCell a k.column_number) (getCell b k.column_number) = 0
    then compareRows rest a b
    else compareCell k.direction k.nulls_direction
        (getCell a k.column_number) (getCell b k.column_number)

/-- Non-strict row order induced by `compareRows`. -/
def rowLe (desc : SortDescription) (a b : Row) : Bool :=
  decide (compareRows desc a b ≤ 0)

/-- Insert a row into a list keeping it ordered under `rowLe`. -/
def insertRow (desc : SortDescription) (x : Row) : List Row → List Row
  | [] => [x]
  | y :: ys => if rowLe desc x y then x :: y :: ys else y :: insertRow desc x ys

/-- Deterministic (stable insertion) sort of a block's rows under a
description; stands for the row permutation produced by the sorter. -/
def sortRows (desc : SortDescription) : List Row → List Row
  | [] => []
  | x :: xs => insertRow desc x (sortRows desc xs)

/-- A block is emitted in non-decreasing order when every adjacent pair of
rows satisfies `rowLe`. -/
def isSortedUnder (desc : SortDescription) : List Row → Bool
  | [] => true
  | [_] => true
  | a :: b :: rest => rowLe desc a b && isSortedUnder desc (b :: rest)

/-- Remove the first occurrence of a row from a list. -/
def eraseRow (x : Row) : List Row → List Row
  | [] => []
  | y :: ys => if y = x then ys else y :: eraseRow x ys

/-- Remove one occurrence of each row of the second list from the first. -/
def diffRows (b : List Row) : List Row → List Row
  | [] => b
  | y :: ys => diffRows (eraseRow y b) ys

/-- Occurrences of a row in a list. -/
def countRow (x : Row) (l : List Row) : Nat :=
  l.countP (fun y => decide (y = x))

/-- Modelled from the spec: `sort_block(block, description, limit)` with a
`UInt64` limit argument.  A zero limit or one at least the row count sorts
the whole block; otherwise only the first `lim` rows are meaningfully
ordered (the smallest `lim` rows, in order) and the remaining rows keep
their input order, standing for the unspecified tail order that a
partial sort leaves.  The routine itself lives in `vec/core/sort_block.cpp`,
outside the excerpt. -/
def sortWithLimit (desc : SortDescription) (lim : Nat) (b : List Row) : List Row :=
  if lim = 0 ∨ b.length ≤ lim then sortRows desc b
  else (sortRows desc b).take lim ++ diffRows b ((sortRows desc b).take lim)

theorem threeWayCmp_swap (a b : Int) : threeWayCmp b a = -threeWayCmp a b := by
  unfold threeWayCmp
  split_ifs <;> omega

theorem compareCell_swap (dir nd : Int) (a b : Cell) :
    compareCell dir nd b a = -compareCell dir nd a b := by
  cases a <;> cases b
  · simp [compareCell]
  · simp [compareCell]
  · simp [compareCell]
  · show threeWayCmp _ _ * dir = -(threeWayCmp _ _ * dir)
    rw [threeWayCmp_swap]
    ring

theorem compareRows_swap (desc : SortDescription) (a b : Row) :
    compareRows desc b a = -compareRows desc a b := by
  induction desc with
  | nil => simp [compareRows]
  | cons k rest ih =>
    rw [compareRows, compareRows, compareCell_swap k.direction k.nulls_direction
      (getCell a k.column_number) (getCell b k.column_number)]
    by_cases h : compareCell k.direction k.nulls_direction
      (getCell a k.column_number) (getCell b k.column_number) = 0
    · rw [h]
      simp only [neg_zero, if_pos rfl]
      exact ih
    · rw [if_neg (by omega), if_neg h]

theorem rowLe_total (desc : SortDescription) (a b : Row) :
    rowLe desc a b = true ∨ rowLe desc b a = true := by
  simp only [rowLe, decide_eq_true_eq]
  rw [compareRows_swap]
  omega

theorem insertRow_length (desc : SortDescription) (x : Row) (ys : List Row) :
    (insertRow desc x ys).length = ys.length + 1 := by
  induction ys with
  | nil => rfl
  | cons y ys ih =>
    simp only [insertRow]
    split <;> simp [ih]

theorem sortRows_length (desc : SortDescription) (xs : List Row) :
    (sortRows desc xs).length = xs.length := by
  induction xs with
  | nil => rfl
  | cons x xs ih => simp [sortRows, insertRow_length, ih]

theorem insertRow_perm (desc : SortDescription) (x : Row) (ys : List Row) :
    (insertRow desc x ys).Perm (x :: ys) := by
  induction ys with
  | nil => simp [insertRow]
  | cons y ys ih =>
    simp only [insertRow]
    split
    · exact List.Perm.refl _
    · exact (ih.cons y).trans (List.Perm.swap x y ys)

theorem sortRows_perm (desc : SortDescription) (xs : List Row) :
    (sortRows desc xs).Perm xs := by
  induction xs with
  | nil => simp [sortRows]
  | cons x xs ih =>
    exact (insertRow_perm desc x (sortRows desc xs)).trans (ih.cons x)

theorem countRow_pos_iff_mem (x : Row) (l : List Row) :
    0 < countRow x l ↔ x ∈ l := by
  unfold countRow
  rw [List.countP_pos_iff]
  constructor
  · rintro ⟨a, ha, hax⟩
    simp at hax
    exact hax ▸ ha
  · intro hx
    exact ⟨x, hx, by simp⟩

theorem countRow_cons (x y : Row) (l : List Row) :
    countRow x (y :: l) = countRow x l + (if y = x then 1 else 0) := by
  unfold countRow
  by_cases h : y = x <;> simp [List.countP_cons, h]

theorem countRow_perm (x : Row) {l₁ l₂ : List Row} (h : l₁.Perm l₂) :
    countRow x l₁ = countRow x l₂ := by
  unfold countRow
  exact h.countP_eq _

theorem countRow_take_le (x : Row) (n : Nat) (l : List Row) :
    countRow x (l.take n) ≤ countRow x l := by
  conv_rhs => rw [← List.take_append_drop n l]
  unfold countRow
  rw [List.countP_append]
  omega

theorem eraseRow_length_of_mem (x : Row) (l : List Row) (h : x ∈ l) :
    (eraseRow x l).length + 1 = l.length := by
  induction l with
  | nil => cases h
  | cons y ys ih =>
    rw [eraseRow]
    by_cases hyx : y = x
    · simp [hyx]
    · have hx : x ∈ ys := by
        rcases List.mem_cons.1 h with h1 | h1
        · exact absurd h1.symm hyx
        · exact h1
      simp [hyx, ih hx]

theorem countRow_eraseRow (x y : Row) (l : List Row) :
    countRow x (eraseRow y l) =
      if x = y then countRow x l - 1 else countRow x l := by
  induction l with
  | nil =>
    rw [eraseRow]
    split <;> simp [countRow]
  | cons z zs ih =>
    rw [eraseRow]
    by_cases hzy : z = y
    · rw [if_pos hzy]
      by_cases hxy : x = y
      · rw [if_pos hxy, countRow_cons, if_pos (hzy.trans hxy.symm)]
        omega
      · rw [if_neg hxy, countRow_cons,
          if_neg (fun h => hxy (h.symm.trans hzy))]
        omega
    · rw [if_neg hzy]
      simp only [countRow_cons]
      rw [ih]
      by_cases hxy : x = y
      · have hzx : ¬ z = x := fun h => hzy (h.trans hxy)
        rw [if_pos hxy, if_pos hxy, if_neg hzx]
        omega
      · rw [if_neg hxy, if_neg hxy]

theorem diffRows_length (ys : List Row) :
    ∀ b : List Row, (∀ x, countRow x ys ≤ countRow x b) →
    (diffRows b ys).length = b.length - ys.length := by
  induction ys with
  | nil => intro b _; simp [diffRows]
  | cons y ys ih =>
    intro b hcount
    have hy : y ∈ b := by
      rw [← countRow_pos_iff_mem]
      have := hcount y
      rw [countRow_cons] at this
      simp at this
      omega
    rw [diffRows]
    have hstep : ∀ x, countRow x ys ≤ countRow x (eraseRow y b) := by
      intro x
      rw [countRow_eraseRow]
      have := hcount x
      rw [countRow_cons] at this
      by_cases hxy : x = y
      · subst hxy
        simp at this
        simp
        omega
      · simp [hxy] at this ⊢
        omega
    rw [ih (eraseRow y b) hstep]
    have := eraseRow_length_of_mem y b hy
    simp
    omega

theorem take_sortRows_counts (desc : SortDescription) (lim : Nat) (b : List Row) :
    ∀ x, countRow x ((sortRows desc b).take lim) ≤ countRow x b := by
  intro x
  calc countRow x ((sortRows desc b).take lim)
      ≤ countRow x (sortRows desc b) := countRow_take_le x lim _
    _ = countRow x b := countRow_perm x (sortRows_perm desc b)

theorem sortWithLimit_length (desc : SortDescription) (lim : Nat) (b : List Row) :
    (sortWithLimit desc lim b).length = b.length := by
  unfold sortWithLimit
  split
  · exact sortRows_length desc b
  · rename_i h
    push_neg at h
    obtain ⟨h0, hlen⟩ := h
    rw [List.length_append,
      diffRows_length _ b (take_sortRows_counts desc lim b)]
    have htake : ((sortRows desc b).take lim).length = lim := by
      simp [List.length_take, sortRows_length]
      omega
    rw [htake]
    omega

theorem sortWithLimit_take (desc : SortDescription) (lim : Nat) (b : List Row)
    (hlim : lim ≠ 0) :
    (sortWithLimit desc lim b).take lim = (sortRows desc b).take lim := by
  unfold sortWithLimit
  split
  · rename_i h
    rcases h with h | h
    · exact absurd h hlim
    · have : (sortRows desc b).length ≤ lim := by
        rw [sortRows_length]; exact h
      simp [List.take_of_length_le this]
  · rename_i h
    push_neg at h
    have htake : ((sortRows desc b).take lim).length = lim := by
      simp [List.length_take, sortRows_length]
      omega
    rw [List.take_append_of_le_length (le_of_eq htake.symm)]
    simp [List.take_take]

/-- Static configuration of one `VSortNode` instance: the thrift-provided
`offset` and `limit` (both `int64_t`, `-1` disabling top-N), the run flush
thresholds (`BUFFERED_BLOCK_SIZE` / `BUFFERED_BLOCK_BYTES`, modelled from
the spec as configuration since the header holding the constants is outside
the excerpt, with `allocated_bytes` abstracted as rows times a per-row byte
cost), the downstream batch size, and the sort-key setup consumed by
`partial_sort`: the ordering expressions' result column indices, the
`is_asc_order` and `nulls_first` flags, and the materialization step of the
`sort_exec_exprs` collaborator. -/
structure SortConfig where
  offset : Int
  limit : Int
  bufferedBlockSize : Nat
  bufferedBlockBytes : Nat
  bytesPerRow : Nat
  batchSize : Nat
  orderingColumns : List Nat
  isAscOrder : List Bool
  nullsFirst : List Bool
  needMaterializeTuple : Bool
  sortTupleSlots : List Nat
deriving Repr, DecidableEq

/-- The errors surfaced by the modelled operator (§7 of the spec):
`cancelled` for `RETURN_IF_CANCELLED`, `internal` for an invariant
violation such as `top()` on an empty heap (undefined behavior in the
C++, an `InternalError` per the spec), `notSupported` for the legacy
row-batch entry point. -/
inductive SortError
  | cancelled
  | internal
  | notSupported
deriving Repr, DecidableEq

/-- Observable events of the build phase, recorded in order: the buffer
state seen at the top of each accumulation loop, each extracted run (its
pre-sort rows), each dominance comparison with its outcome, each admission
(unconditional admissions also record the real row total of the already
admitted runs and the `_num_rows_in_block` counter at test time), each
discard, each poll of the cancellation flag, and each buffer reset. -/
inductive BuildEvent
  | accumStart (bufferRows : Nat) (bufferValid : Bool)
  | extractRun (chunk : List Row)
  | pruneCompare (discarded : Bool)
  | admitUncond (rowsHeldBefore : Nat) (counterBefore : Nat)
  | admitCompared
  | discardRun
  | admitNormal
  | cancelPoll (observed : Bool)
  | bufferReset
deriving Repr, DecidableEq

/-- State of the build phase (`sort_input`): the mutable run buffer
`_unsorted_block` (with a validity flag that is false while the buffer is
in the moved-from state left by `to_block`), the admitted runs
`_sorted_blocks`, the `_num_rows_in_block` counter, the top-N pruning heap
`_block_priority_queue` (each cursor carried as its block), the number of
cancellation polls so far, and the event trace. -/
structure BuildState where
  bufferValid : Bool
  buffer : List Row
  sortedBlocks : List (List Row)
  numRowsInBlock : Nat
  pruneHeap : List (List Row)
  pollCount : Nat
  trace : List BuildEvent
deriving Repr, DecidableEq

/-- Push one event at the end of the trace. -/
def pushEvent (st : BuildState) (ev : BuildEvent) : BuildState :=
  { st with trace := st.trace ++ [ev] }

/-- The initial build state: a fresh empty valid buffer, no runs, counter
zero, empty heap, empty trace. -/
def initBuildState : BuildState :=
  { bufferValid := true, buffer := [], sortedBlocks := [], numRowsInBlock := 0
  , pruneHeap := [], pollCount := 0, trace := [] }

/-- The inner accumulation loop of `sort_input`: pull upstream blocks and
merge the non-empty ones into the buffer while upstream is not exhausted
and neither the row nor the byte threshold is crossed.  Upstream is a list
of blocks; pulling from the empty list yields an empty block with
`eos = true`, matching a child that reports end-of-stream on the call after
its last block.  Returns the buffer, the unconsumed upstream and the `eos`
flag. -/
def accumulate (cfg : SortConfig) :
    List (List Row) → List Row → List Row × List (List Row) × Bool
  | [], buf => (buf, [], true)
  | b :: rest, buf =>
    let buf2 := if b.length ≠ 0 then buf ++ b else buf
    if buf2.length < cfg.bufferedBlockSize ∧
        buf2.length * cfg.bytesPerRow < cfg.bufferedBlockBytes then
      accumulate cfg rest buf2
    else
      (buf2, rest, false)

/-- The `_sort_description` built inside `partial_sort`: per key,
`direction = is_asc ? 1 : -1` and
`nulls_direction = nulls_first ? -direction : direction`; the
`column_number` is the ordering expression's result column. -/
def buildSortDescription (cols : List Nat) (asc nf : List Bool) : SortDescription :=
  (List.range cols.length).map fun i =>
    { column_number := cols.getD i 0
    , direction := if asc.getD i true then 1 else -1
    , nulls_direction :=
        if nf.getD i false then -(if asc.getD i true then 1 else -1)
        else (if asc.getD i true then 1 else -1) }

/-- The description a configuration induces. -/
def descOf (cfg : SortConfig) : SortDescription :=
  buildSortDescription cfg.orderingColumns cfg.isAscOrder cfg.nullsFirst

/-- Modelled from the spec: the reduced block built when
`need_materialize_tuple()` holds, keeping only the materialized
sort-output columns (the expression contexts are external collaborators). -/
def materializeTuple (slots : List Nat) (b : List Row) : List Row :=
  b.map fun r => slots.map fun c => getCell r c

/-- The third argument `_offset + _limit` of the `sort_block` call, as the
`UInt64` parameter receives it: the signed 64-bit sum reduced modulo
`2 ^ 64`. -/
def sortLimitArg (off lim : Int) : Nat :=
  ((off + lim) % (2 ^ 64 : Int)).toNat

/-- `VSortNode::partial_sort` on one extracted run: optionally materialize
the sort tuple, then sort the block under the description with the
`_offset + _limit` limit argument. -/
def partialSortStep (cfg : SortConfig) (b : List Row) : List Row :=
  let b2 := if cfg.needMaterializeTuple then materializeTuple cfg.sortTupleSlots b else b
  sortWithLimit (descOf cfg) (sortLimitArg cfg.offset cfg.limit) b2

/-- Last row of a block (the largest row of a sorted run). -/
def lastRow (b : List Row) : Row := b.getD (b.length - 1) []

/-- First row of a block (the smallest row of a sorted run). -/
def firstRow (b : List Row) : Row := b.headD []

/-- Modelled from the spec: the top of the max-heap
`_block_priority_queue` — the admitted run whose last row is largest under
the reverse cursor order; `none` on the empty heap (where the C++ `top()`
is undefined behavior).  Ties keep the earliest admitted run. -/
def pruneHeapTop (desc : SortDescription) : List (List Row) → Option (List Row)
  | [] => none
  | b :: rest =>
    match pruneHeapTop desc rest with
    | none => some b
    | some m => if compareRows desc (lastRow m) (lastRow b) > 0 then some m else some b

/-- Modelled from the spec: `SortBlockCursor::totally_greater` — the new
run's first (smallest) row is greater than or equal to the heap-top run's
last (largest) row, so every row of the new run dominates the whole
admitted candidate set. -/
def totallyGreater (desc : SortDescription) (b top : List Row) : Bool :=
  decide (compareRows desc (firstRow b) (lastRow top) ≥ 0)

/-- The admission step of `sort_input` on one partially sorted block
(lines 149-173 of the source).  In top-N mode (`_limit != -1`), a block is
taken unconditionally while `_num_rows_in_block < _limit`; the counter is
then increased by the row count of the just-moved-from block, which is
zero.  Otherwise a cursor on the block is compared against the heap top
(undefined behavior — an internal error — if the heap is empty) and the
block is either discarded (`continue`) or admitted.  In plain-sort mode
the block is always appended.  Returns the state, whether the `continue`
path was taken, and a fatal error if any. -/
def admitBlock (cfg : SortConfig) (block : List Row) (st : BuildState) :
    BuildState × Bool × Option SortError :=
  if cfg.limit ≠ -1 then
    if (st.numRowsInBlock : Int) < cfg.limit then
      let st := pushEvent st
        (.admitUncond (st.sortedBlocks.map List.length).sum st.numRowsInBlock)
      let st := { st with sortedBlocks := st.sortedBlocks ++ [block] }
      let movedFrom : List Row := []
      let st := { st with numRowsInBlock := st.numRowsInBlock + movedFrom.length }
      let st := { st with pruneHeap := st.pruneHeap ++ [block] }
      (st, false, none)
    else
      match pruneHeapTop (descOf cfg) st.pruneHeap with
      | none => (st, false, some .internal)
      | some top =>
        let res := totallyGreater (descOf cfg) block top
        let st := pushEvent st (.pruneCompare res)
        if res then
          (pushEvent st .discardRun, true, none)
        else
          let st := pushEvent st .admitCompared
          let st := { st with sortedBlocks := st.sortedBlocks ++ [block] }
          let st := { st with pruneHeap := st.pruneHeap ++ [block] }
          (st, false, none)
  else
    (pushEvent { st with sortedBlocks := st.sortedBlocks ++ [block] } .admitNormal,
      false, none)

/-- The outer loop of `VSortNode::sort_input`, fuel-indexed (any fuel
exceeding the upstream block count is adequate).  Each iteration logs the
buffer state, fails if the buffer was left moved-from, accumulates, and if
the buffer holds rows extracts it (`to_block`, leaving the buffer
moved-from), partially sorts it, runs the admission step, and — except on
the discard `continue` path — polls the cancellation flag (the external
`check_query_state` collaborator is modelled as always succeeding) and
resets the buffer to a fresh empty one, repeating until upstream `eos`. -/
def sortInputLoop (cfg : SortConfig) (sched : Nat → Bool) :
    Nat → List (List Row) → BuildState → BuildState × Option SortError
  | 0, _, st => (st, none)
  | fuel + 1, upstream, st =>
    let st := pushEvent st (.accumStart st.buffer.length st.bufferValid)
    if st.bufferValid = false then (st, some .internal)
    else
      match accumulate cfg upstream st.buffer with
      | (buf, rest, eos) =>
        let st := { st with buffer := buf }
        if buf.length > 0 then
          let chunk := buf
          let st := pushEvent { st with buffer := [], bufferValid := false }
            (.extractRun chunk)
          let block := partialSortStep cfg chunk
          match admitBlock cfg block st with
          | (st, _, some e) => (st, some e)
          | (st, true, none) =>
            if eos then (st, none) else sortInputLoop cfg sched fuel rest st
          | (st, false, none) =>
            let observed := sched st.pollCount
            let st := pushEvent { st with pollCount := st.pollCount + 1 }
              (.cancelPoll observed)
            if observed then (st, some .cancelled)
            else
              let st := pushEvent { st with buffer := [], bufferValid := true }
                .bufferReset
              if eos then (st, none) else sortInputLoop cfg sched fuel rest st
        else
          if eos then (st, none) else sortInputLoop cfg sched fuel rest st

/-- The build phase of the operator on a given upstream stream and
cancellation schedule (the flag value seen by the k-th poll). -/
def buildModel (cfg : SortConfig) (sched : Nat → Bool)
    (stream : List (List Row)) : BuildState × Option SortError :=
  sortInputLoop cfg sched (stream.length + 1) stream initBuildState

/-- The pre-sort runs extracted during a build, read off the trace. -/
def chunksOf (tr : List BuildEvent) : List (List Row) :=
  tr.filterMap fun ev =>
    match ev with
    | .extractRun c => some c
    | _ => none

/-- A merge cursor (`SortCursorImpl`): the rows of one run and the current
position. -/
structure MergeCursor where
  rows : List Row
  pos : Nat
deriving Repr, DecidableEq

/-- The row a cursor currently points at. -/
def MergeCursor.current (c : MergeCursor) : Row := c.rows.getD c.pos []

/-- `isLast()`: the cursor sits on the final row of its run. -/
def MergeCursor.isLast (c : MergeCursor) : Bool :=
  decide (c.rows.length ≤ c.pos + 1)

/-- Total rows left on all cursors of a queue. -/
def sumRemaining (q : List MergeCursor) : Nat :=
  (q.map fun c => c.rows.length - c.pos).sum

/-- The index and cursor of the queue's smallest current row under the
forward comparator — the element `top()` of the merge min-heap pops.  Ties
resolve to the earliest cursor, standing for the unspecified tie order of
`std::priority_queue`. -/
def findMin (desc : SortDescription) : List MergeCursor → Option (Nat × MergeCursor)
  | [] => none
  | c :: rest =>
    match findMin desc rest with
    | none => some (0, c)
    | some (j, m) =>
      if compareRows desc m.current c.current < 0 then some (j + 1, m) else some (0, c)

/-- After popping cursor `i`: advance it if rows remain (`next()` and push
back), else drop it from the queue. -/
def advanceOrRemove (q : List MergeCursor) (i : Nat) : List MergeCursor :=
  if (q.getD i ⟨[], 0⟩).isLast then q.eraseIdx i
  else q.set i { q.getD i ⟨[], 0⟩ with pos := (q.getD i ⟨[], 0⟩).pos + 1 }

/-- The full sequence of rows the merge heap would pop, in pop order;
fuel-indexed, any fuel at least `sumRemaining q` being adequate. -/
def popList (desc : SortDescription) : Nat → List MergeCursor → List Row
  | 0, _ => []
  | fuel + 1, q =>
    match findMin desc q with
    | none => []
    | some (i, c) => c.current :: popList desc fuel (advanceOrRemove q i)

/-- The merge loop of `merge_sort_read`: repeatedly pop the least cursor;
while `_offset` is positive the popped row is skipped and the offset
decremented, otherwise it is emitted; the popped cursor advances or is
dropped; the loop stops when the emitted rows reach the downstream batch
size or the heap drains.  Returns the queue, the remaining offset and the
emitted rows. -/
def mergeLoop (desc : SortDescription) (batch : Nat) :
    Nat → List MergeCursor → Int → List Row → List MergeCursor × Int × List Row
  | 0, q, off, merged => (q, off, merged)
  | fuel + 1, q, off, merged =>
    match findMin desc q with
    | none => (q, off, merged)
    | some (i, c) =>
      let step : Int × List Row :=
        if off = 0 then (off, merged ++ [c.current]) else (off - 1, merged)
      let q2 := advanceOrRemove q i
      if step.2.length = batch then (q2, step.1, step.2)
      else mergeLoop desc batch fuel q2 step.1 step.2

/-- Probe-phase state of the operator: the runs, the merge heap (loaded by
`build_merge_tree` only when more than one run exists), the mutable
`_offset`, the node's `_limit` and the `_num_rows_returned` counter of the
`reached_limit` wrapper. -/
structure OperatorState where
  sortedBlocks : List (List Row)
  queue : List MergeCursor
  offset : Int
  limit : Int
  numRowsReturned : Int
deriving Repr, DecidableEq

/-- Modelled from the spec: `ExecNode::reached_limit`, wrapping every
delivered batch — when a limit is set and the cumulative row count reaches
it, the batch is truncated so the total equals the limit and `eos` flips to
true.  Returns the new `_num_rows_returned`, the delivered block and the
`eos` flag. -/
def reachedLimit (limit numReturned : Int) (block : List Row) (eos : Bool) :
    Int × List Row × Bool :=
  if limit ≠ -1 ∧ numReturned + block.length ≥ limit then
    (limit, block.take (limit - numReturned).toNat, true)
  else
    (numReturned + block.length, block, eos)

/-- Which branch of `get_next` served a call. -/
inductive GetNextPath
  | emptyPath
  | fastPath
  | mergePath
deriving Repr, DecidableEq

/-- `VSortNode::get_next(RuntimeState*, Block*, bool*)` on a caller-supplied
empty block: no runs means immediate `eos`; exactly one run takes the fast
path — skip the first `_offset` rows of the single run
(`skip_num_rows`, modelled from the spec as slicing) and swap it into the
caller's block with `eos` set; otherwise `merge_sort_read` pops from the
heap.  Every branch then passes the delivered block through
`reached_limit`. -/
def getNextBlock (cfg : SortConfig) (st : OperatorState) :
    OperatorState × List Row × Bool × GetNextPath :=
  if st.sortedBlocks.isEmpty then
    match reachedLimit st.limit st.numRowsReturned [] true with
    | (nr, blk, eos) => ({ st with numRowsReturned := nr }, blk, eos, .emptyPath)
  else if st.sortedBlocks.length = 1 then
    let b0 := st.sortedBlocks.headD []
    let b1 := if st.offset ≠ 0 then b0.drop st.offset.toNat else b0
    let st := { st with sortedBlocks := [[]] }
    match reachedLimit st.limit st.numRowsReturned b1 true with
    | (nr, blk, eos) => ({ st with numRowsReturned := nr }, blk, eos, .fastPath)
  else
    match mergeLoop (descOf cfg) cfg.batchSize (sumRemaining st.queue + 1)
        st.queue st.offset [] with
    | (q2, off2, merged) =>
      let st := { st with queue := q2, offset := off2 }
      if merged.length = 0 then
        match reachedLimit st.limit st.numRowsReturned [] true with
        | (nr, blk, eos) => ({ st with numRowsReturned := nr }, blk, eos, .mergePath)
      else
        match reachedLimit st.limit st.numRowsReturned merged false with
        | (nr, blk, eos) => ({ st with numRowsReturned := nr }, blk, eos, .mergePath)

/-- `VSortNode::build_merge_tree`: one cursor per run at row zero; the
priority queue is loaded only when more than one run exists. -/
def buildMergeTree (cfg : SortConfig) (bst : BuildState) : OperatorState :=
  let cursors := bst.sortedBlocks.map fun b => ({ rows := b, pos := 0 } : MergeCursor)
  { sortedBlocks := bst.sortedBlocks
  , queue := if bst.sortedBlocks.length > 1 then cursors else []
  , offset := cfg.offset
  , limit := cfg.limit
  , numRowsReturned := 0 }

/-- Drive `get_next` repeatedly, concatenating the delivered blocks until a
call reports `eos` (fuel-indexed; any fuel above the total remaining rows
plus one is adequate). -/
def drainLoop (cfg : SortConfig) : Nat → OperatorState → List Row
  | 0, _ => []
  | fuel + 1, st =>
    match getNextBlock cfg st with
    | (st2, blk, eos, _) => if eos then blk else blk ++ drainLoop cfg fuel st2

/-- All rows the operator delivers downstream after a given build state. -/
def drainModel (cfg : SortConfig) (st : OperatorState) : List Row :=
  drainLoop cfg (sumRemaining st.queue + 2) st

/-- The whole operator on one upstream stream: build (`open`), then deliver
every block (`get_next` until `eos`); a build error surfaces unchanged. -/
def operatorOutput (cfg : SortConfig) (sched : Nat → Bool)
    (stream : List (List Row)) : Except SortError (List Row) :=
  match buildModel cfg sched stream with
  | (_, some e) => .error e
  | (bst, none) => .ok (drainModel cfg (buildMergeTree cfg bst))

/-- `VSortNode::get_next(RuntimeState*, RowBatch*, bool*)`, the legacy
row-batch overload: sets `eos` and returns `NotSupported`, touching no
state. -/
def getNextRowBatch (st : OperatorState) : OperatorState × Bool × Except SortError Unit :=
  (st, true, .error .notSupported)

/-- Classifier: run-extraction events. -/
def isExtractEv : BuildEvent → Bool
  | .extractRun _ => true
  | _ => false

/-- Classifier: dominance-comparison events. -/
def isPruneEv : BuildEvent → Bool
  | .pruneCompare _ => true
  | _ => false

/-- Classifier: run-discard events. -/
def isDiscardEv : BuildEvent → Bool
  | .discardRun => true
  | _ => false

/-- Classifier: post-comparison admissions. -/
def isComparedEv : BuildEvent → Bool
  | .admitCompared => true
  | _ => false

/-- Classifier: unconditional admissions. -/
def isUncondEv : BuildEvent → Bool
  | .admitUncond _ _ => true
  | _ => false

/-- Classifier: cancellation polls. -/
def isPollEv : BuildEvent → Bool
  | .cancelPoll _ => true
  | _ => false

theorem accumulate_spec (cfg : SortConfig) :
    ∀ (upstream : List (List Row)) (buf bufOut : List Row)
      (rest : List (List Row)) (eos : Bool),
      accumulate cfg upstream buf = (bufOut, rest, eos) →
      (∃ consumed, upstream = consumed ++ rest ∧ bufOut = buf ++ consumed.flatten) ∧
        (eos = true → rest = []) ∧ (eos = false → rest.length < upstream.length) := by
  intro upstream
  induction upstream with
  | nil =>
    intro buf bufOut rest eos h
    rw [accumulate] at h
    cases h
    refine ⟨⟨[], by simp, by simp⟩, fun _ => rfl, fun hf => by cases hf⟩
  | cons b rest0 ih =>
    intro buf bufOut rest eos h
    rw [accumulate] at h
    have hbuf2 : (if b.length ≠ 0 then buf ++ b else buf) = buf ++ b := by
      by_cases hb : b.length = 0
      · have : b = [] := List.length_eq_zero.1 hb
        simp [this]
      · simp [hb]
    rw [hbuf2] at h
    by_cases hcond : (buf ++ b).length < cfg.bufferedBlockSize ∧
        (buf ++ b).length * cfg.bytesPerRow < cfg.bufferedBlockBytes
    · rw [if_pos hcond] at h
      obtain ⟨⟨consumed0, hc1, hc2⟩, he1, _⟩ := ih (buf ++ b) bufOut rest eos h
      have hlen : rest.length ≤ rest0.length := by
        rw [hc1]; simp
      refine ⟨⟨b :: consumed0, ?_, ?_⟩, he1, ?_⟩
      · simp [hc1]
      · simp [hc2]
      · intro _
        simp
        omega
    · rw [if_neg hcond] at h
      cases h
      exact ⟨⟨[b], by simp, by simp⟩,
        ⟨fun ht => absurd ht (by decide), fun _ => Nat.lt_succ_self _⟩⟩

theorem admitBlock_uncond (cfg : SortConfig) (block : List Row) (st : BuildState)
    (hl : 1 ≤ cfg.limit) (hn : st.numRowsInBlock = 0) :
    admitBlock cfg block st =
      ({ st with
          trace := st.trace ++
            [.admitUncond (st.sortedBlocks.map List.length).sum st.numRowsInBlock]
        , sortedBlocks := st.sortedBlocks ++ [block]
        , pruneHeap := st.pruneHeap ++ [block] }, false, none) := by
  have hne : cfg.limit ≠ -1 := by omega
  have hlt : (st.numRowsInBlock : Int) < cfg.limit := by
    rw [hn]; exact_mod_cast hl
  unfold admitBlock
  rw [if_pos hne, if_pos hlt]
  simp [pushEvent]

theorem admitBlock_normal (cfg : SortConfig) (block : List Row) (st : BuildState)
    (hl : cfg.limit = -1) :
    admitBlock cfg block st =
      ({ st with
          trace := st.trace ++ [.admitNormal]
        , sortedBlocks := st.sortedBlocks ++ [block] }, false, none) := by
  unfold admitBlock
  rw [if_neg (by simp [hl])]
  simp [pushEvent]

theorem admitBlock_emptyHeap (cfg : SortConfig) (block : List Row) (st : BuildState)
    (hne : cfg.limit ≠ -1) (hge : ¬ (st.numRowsInBlock : Int) < cfg.limit)
    (hheap : st.pruneHeap = []) :
    admitBlock cfg block st = (st, false, some .internal) := by
  unfold admitBlock
  rw [if_pos hne, if_neg hge, hheap]
  rfl

/-- Build-phase invariant for positive limits: across the whole build the
`_num_rows_in_block` counter stays zero, every extracted run is admitted
through the unconditional branch (whose recorded counter value is zero),
and no dominance comparison, comparison-admission or discard ever
happens. -/
theorem buildPosLimitInvariant (cfg : SortConfig) (sched : Nat → Bool)
    (hl : 1 ≤ cfg.limit) :
    ∀ (fuel : Nat) (upstream : List (List Row)) (st st2 : BuildState)
      (e : Option SortError),
      sortInputLoop cfg sched fuel upstream st = (st2, e) →
      upstream.length < fuel →
      st.bufferValid = true → st.buffer = [] → st.numRowsInBlock = 0 →
      st2.numRowsInBlock = 0 ∧
      st2.trace.countP isPruneEv = st.trace.countP isPruneEv ∧
      st2.trace.countP isDiscardEv = st.trace.countP isDiscardEv ∧
      st2.trace.countP isComparedEv = st.trace.countP isComparedEv ∧
      st2.trace.countP isUncondEv + st.trace.countP isExtractEv
        = st.trace.countP isUncondEv + st2.trace.countP isExtractEv ∧
      (∀ n c, BuildEvent.admitUncond n c ∈ st2.trace →
        BuildEvent.admitUncond n c ∈ st.trace ∨ c = 0) := by
  intro fuel
  induction fuel with
  | zero =>
    intro upstream st st2 e _ hfuel _ _ _
    omega
  | succ fuel ih =>
    intro upstream st st2 e h hfuel hv hbuf hn
    rw [sortInputLoop] at h
    rw [if_neg (by simp [pushEvent, hv])] at h
    rcases ha : accumulate cfg upstream (pushEvent st
      (.accumStart st.buffer.length st.bufferValid)).buffer with ⟨buf, rest, eos⟩
    rw [ha] at h
    dsimp only at h
    obtain ⟨⟨consumed, hc1, hc2⟩, heos1, heos2⟩ :=
      accumulate_spec cfg _ _ _ _ _ ha
    rw [pushEvent] at hc2
    simp only [hbuf] at hc2
    rw [List.nil_append] at hc2
    by_cases hb : buf.length > 0
    · rw [if_pos hb] at h
      rw [admitBlock_uncond cfg _ _ hl (by simp [pushEvent, hn])] at h
      dsimp only at h
      simp only [pushEvent, hbuf, hn] at h
      by_cases hsch : sched st.pollCount = true
      · rw [if_pos hsch] at h
        cases h
        refine ⟨rfl, ?_, ?_, ?_, ?_, ?_⟩
        · simp [List.countP_append, isPruneEv]
        · simp [List.countP_append, isDiscardEv]
        · simp [List.countP_append, isComparedEv]
        · simp [List.append_assoc, List.countP_append, List.countP_cons,
            List.countP_nil, isUncondEv, isExtractEv]
          omega
        · intro n c hmem
          simp only [List.append_assoc] at hmem
          simp at hmem
          rcases hmem with hmem | hmem
          · exact Or.inl hmem
          · exact Or.inr hmem.2
      · rw [if_neg hsch] at h
        by_cases heos : eos = true
        · rw [if_pos heos] at h
          cases h
          refine ⟨rfl, ?_, ?_, ?_, ?_, ?_⟩
          · simp [List.countP_append, isPruneEv]
          · simp [List.countP_append, isDiscardEv]
          · simp [List.countP_append, isComparedEv]
          · simp [List.append_assoc, List.countP_append, List.countP_cons,
              List.countP_nil, isUncondEv, isExtractEv]
            omega
          · intro n c hmem
            simp only [List.append_assoc] at hmem
            simp at hmem
            rcases hmem with hmem | hmem
            · exact Or.inl hmem
            · exact Or.inr hmem.2
        · rw [if_neg heos] at h
          have hrest : rest.length < fuel := by
            have := heos2 (by simpa using heos)
            omega
          obtain ⟨g1, g2, g3, g4, g5, g6⟩ := ih rest _ st2 e h hrest rfl rfl rfl
          refine ⟨g1, ?_, ?_, ?_, ?_, ?_⟩
          · rw [g2]; simp [List.countP_append, isPruneEv]
          · rw [g3]; simp [List.countP_append, isDiscardEv]
          · rw [g4]; simp [List.countP_append, isComparedEv]
          · simp [List.append_assoc, List.countP_append, List.countP_cons,
              List.countP_nil, isUncondEv, isExtractEv] at g5 ⊢
            omega
          · intro n c hmem
            rcases g6 n c hmem with hmem2 | hc
            · simp only [List.append_assoc] at hmem2
              simp at hmem2
              rcases hmem2 with hmem2 | hmem2
              · exact Or.inl hmem2
              · exact Or.inr hmem2.2
            · exact Or.inr hc
    · rw [if_neg hb] at h
      by_cases heos : eos = true
      · rw [if_pos heos] at h
        cases h
        refine ⟨by simp [pushEvent, hn], ?_, ?_, ?_, ?_, ?_⟩
        · simp [pushEvent, List.countP_append, isPruneEv]
        · simp [pushEvent, List.countP_append, isDiscardEv]
        · simp [pushEvent, List.countP_append, isComparedEv]
        · simp [pushEvent, List.countP_append, isUncondEv, isExtractEv]
        · intro n c hmem
          simp only [pushEvent] at hmem
          simp at hmem
          exact Or.inl hmem
      · rw [if_neg heos] at h
        have hrest : rest.length < fuel := by
          have := heos2 (by simpa using heos)
          omega
        have hbuf0 : buf = [] := List.length_eq_zero.1 (by omega)
        obtain ⟨g1, g2, g3, g4, g5, g6⟩ := ih rest _ st2 e h hrest
          (by simp [pushEvent, hv]) (by simp [hbuf0]) (by simp [pushEvent, hn])
        refine ⟨g1, ?_, ?_, ?_, ?_, ?_⟩
        · rw [g2]; simp [pushEvent, List.countP_append, isPruneEv]
        · rw [g3]; simp [pushEvent, List.countP_append, isDiscardEv]
        · rw [g4]; simp [pushEvent, List.countP_append, isComparedEv]
        · simp [pushEvent, List.append_assoc, List.countP_append,
            List.countP_cons, List.countP_nil, isUncondEv, isExtractEv] at g5 ⊢
          omega
        · intro n c hmem
          rcases g6 n c hmem with hmem2 | hc
          · simp only [pushEvent] at hmem2
            simp at hmem2
            exact Or.inl hmem2
          · exact Or.inr hc

/-- Build-phase cancellation accounting for the configurations that do not
trip the empty-heap defect (plain sort, or top-N with a positive limit):
the cancellation flag is polled exactly once per extracted run, and when
the flag is set from the start any build that extracts a run stops with
the cancellation error. -/
theorem buildCancelInvariant (cfg : SortConfig) (sched : Nat → Bool)
    (hl : cfg.limit = -1 ∨ 1 ≤ cfg.limit) :
    ∀ (fuel : Nat) (upstream : List (List Row)) (st st2 : BuildState)
      (e : Option SortError),
      sortInputLoop cfg sched fuel upstream st = (st2, e) →
      upstream.length < fuel →
      st.bufferValid = true → st.buffer = [] → st.numRowsInBlock = 0 →
      st2.numRowsInBlock = 0 ∧
      st2.trace.countP isPollEv + st.trace.countP isExtractEv
        = st.trace.countP isPollEv + st2.trace.countP isExtractEv ∧
      ((∀ k, sched k = true) →
        e = some .cancelled ∨
          st2.trace.countP isExtractEv = st.trace.countP isExtractEv) := by
  intro fuel
  induction fuel with
  | zero =>
    intro upstream st st2 e _ hfuel _ _ _
    omega
  | succ fuel ih =>
    intro upstream st st2 e h hfuel hv hbuf hn
    rw [sortInputLoop] at h
    rw [if_neg (by simp [pushEvent, hv])] at h
    rcases ha : accumulate cfg upstream (pushEvent st
      (.accumStart st.buffer.length st.bufferValid)).buffer with ⟨buf, rest, eos⟩
    rw [ha] at h
    dsimp only at h
    obtain ⟨⟨consumed, hc1, hc2⟩, heos1, heos2⟩ :=
      accumulate_spec cfg _ _ _ _ _ ha
    by_cases hb : buf.length > 0
    · rw [if_pos hb] at h
      rcases hl with hlim | hlim
      · rw [admitBlock_normal cfg _ _ hlim] at h
        dsimp only at h
        simp only [pushEvent, hbuf, hn] at h
        by_cases hsch : sched st.pollCount = true
        · rw [if_pos hsch] at h
          cases h
          refine ⟨by simp [hn], ?_, ?_⟩
          · simp [List.append_assoc, List.countP_append, List.countP_cons,
              List.countP_nil, isPollEv, isExtractEv]
            omega
          · intro _
            exact Or.inl rfl
        · rw [if_neg hsch] at h
          by_cases heos : eos = true
          · rw [if_pos heos] at h
            cases h
            refine ⟨by simp [hn], ?_, ?_⟩
            · simp [List.append_assoc, List.countP_append, List.countP_cons,
                List.countP_nil, isPollEv, isExtractEv]
              omega
            · intro hall
              exact absurd (hall st.pollCount) hsch
          · rw [if_neg heos] at h
            have hrest : rest.length < fuel := by
              have := heos2 (by simpa using heos)
              omega
            obtain ⟨g1, g2, g3⟩ := ih rest _ st2 e h hrest rfl rfl (by simp [hn])
            refine ⟨g1, ?_, ?_⟩
            · simp [List.append_assoc, List.countP_append, List.countP_cons,
                List.countP_nil, isPollEv, isExtractEv] at g2 ⊢
              omega
            · intro hall
              exact absurd (hall st.pollCount) hsch
      · rw [admitBlock_uncond cfg _ _ hlim (by simp [pushEvent, hn])] at h
        dsimp only at h
        simp only [pushEvent, hbuf, hn] at h
        by_cases hsch : sched st.pollCount = true
        · rw [if_pos hsch] at h
          cases h
          refine ⟨rfl, ?_, ?_⟩
          · simp [List.append_assoc, List.countP_append, List.countP_cons,
              List.countP_nil, isPollEv, isExtractEv]
            omega
          · intro _
            exact Or.inl rfl
        · rw [if_neg hsch] at h
          by_cases heos : eos = true
          · rw [if_pos heos] at h
            cases h
            refine ⟨rfl, ?_, ?_⟩
            · simp [List.append_assoc, List.countP_append, List.countP_cons,
                List.countP_nil, isPollEv, isExtractEv]
              omega
            · intro hall
              exact absurd (hall st.pollCount) hsch
          · rw [if_neg heos] at h
            have hrest : rest.length < fuel := by
              have := heos2 (by simpa using heos)
              omega
            obtain ⟨g1, g2, g3⟩ := ih rest _ st2 e h hrest rfl rfl rfl
            refine ⟨g1, ?_, ?_⟩
            · simp [List.append_assoc, List.countP_append, List.countP_cons,
                List.countP_nil, isPollEv, isExtractEv] at g2 ⊢
              omega
            · intro hall
              exact absurd (hall st.pollCount) hsch
    · rw [if_neg hb] at h
      by_cases heos : eos = true
      · rw [if_pos heos] at h
        cases h
        refine ⟨by simp [pushEvent, hn], ?_, ?_⟩
        · simp [pushEvent, List.countP_append, isPollEv, isExtractEv]
        · intro _
          right
          simp [pushEvent, List.countP_append, isExtractEv]
      · rw [if_neg heos] at h
        have hrest : rest.length < fuel := by
          have := heos2 (by simpa using heos)
          omega
        have hbuf0 : buf = [] := List.length_eq_zero.1 (by omega)
        obtain ⟨g1, g2, g3⟩ := ih rest _ st2 e h hrest
          (by simp [pushEvent, hv]) (by simp [hbuf0]) (by simp [pushEvent, hn])
        refine ⟨g1, ?_, ?_⟩
        · simp [pushEvent, List.append_assoc, List.countP_append,
            List.countP_cons, List.countP_nil, isPollEv, isExtractEv] at g2 ⊢
          omega
        · intro hall
          rcases g3 hall with hc | hc
          · exact Or.inl hc
          · right
            rw [hc]
            simp [pushEvent, List.countP_append, isExtractEv]

/-- Build-phase buffer invariant, for every configuration: each
accumulation iteration starts on a fresh, valid, empty buffer, and when
the build succeeds the extracted runs partition the upstream rows exactly
(their concatenation, pre-sort, is the concatenation of the upstream
blocks). -/
theorem buildBufferInvariant (cfg : SortConfig) (sched : Nat → Bool) :
    ∀ (fuel : Nat) (upstream : List (List Row)) (st st2 : BuildState)
      (e : Option SortError),
      sortInputLoop cfg sched fuel upstream st = (st2, e) →
      upstream.length < fuel →
      st.bufferValid = true → st.buffer = [] → st.numRowsInBlock = 0 →
      (cfg.limit = -1 ∨ 1 ≤ cfg.limit ∨ st.pruneHeap = []) →
      (∀ n v, BuildEvent.accumStart n v ∈ st2.trace →
        BuildEvent.accumStart n v ∈ st.trace ∨ (n = 0 ∧ v = true)) ∧
      (e = none →
        (chunksOf st2.trace).flatten
          = (chunksOf st.trace).flatten ++ upstream.flatten) := by
  intro fuel
  induction fuel with
  | zero =>
    intro upstream st st2 e _ hfuel _ _ _ _
    omega
  | succ fuel ih =>
    intro upstream st st2 e h hfuel hv hbuf hn hH
    rw [sortInputLoop] at h
    rw [if_neg (by simp [pushEvent, hv])] at h
    rcases ha : accumulate cfg upstream (pushEvent st
      (.accumStart st.buffer.length st.bufferValid)).buffer with ⟨buf, rest, eos⟩
    rw [ha] at h
    dsimp only at h
    obtain ⟨⟨consumed, hc1, hc2⟩, heos1, heos2⟩ :=
      accumulate_spec cfg _ _ _ _ _ ha
    rw [pushEvent] at hc2
    simp only [hbuf] at hc2
    rw [List.nil_append] at hc2
    by_cases hb : buf.length > 0
    · rw [if_pos hb] at h
      by_cases hlim1 : cfg.limit = -1
      · rw [admitBlock_normal cfg _ _ hlim1] at h
        dsimp only at h
        simp only [pushEvent, hbuf, hn] at h
        by_cases hsch : sched st.pollCount = true
        · rw [if_pos hsch] at h
          cases h
          refine ⟨?_, ?_⟩
          · intro n v hmem
            simp only [List.append_assoc] at hmem
            simp [hv, hbuf] at hmem
            rcases hmem with hmem | hmem
            · exact Or.inl hmem
            · exact Or.inr hmem
          · intro he
            cases he
        · rw [if_neg hsch] at h
          by_cases heos : eos = true
          · rw [if_pos heos] at h
            cases h
            refine ⟨?_, ?_⟩
            · intro n v hmem
              simp only [List.append_assoc] at hmem
              simp [hv, hbuf] at hmem
              rcases hmem with hmem | hmem
              · exact Or.inl hmem
              · exact Or.inr hmem
            · intro _
              have hrest0 : rest = [] := heos1 heos
              rw [hrest0] at hc1
              simp [List.append_assoc, chunksOf, List.filterMap_append, hc1, hc2]
          · rw [if_neg heos] at h
            have hrest : rest.length < fuel := by
              have := heos2 (by simpa using heos)
              omega
            obtain ⟨g1, g2⟩ := ih rest _ st2 e h hrest rfl rfl (by simp [hn])
              (Or.inl hlim1)
            refine ⟨?_, ?_⟩
            · intro n v hmem
              rcases g1 n v hmem with hmem2 | hp
              · simp only [List.append_assoc] at hmem2
                simp [hv, hbuf] at hmem2
                rcases hmem2 with hmem2 | hmem2
                · exact Or.inl hmem2
                · exact Or.inr hmem2
              · exact Or.inr hp
            · intro he
              rw [g2 he]
              simp [List.append_assoc, chunksOf, List.filterMap_append, hc1, hc2]
      · by_cases hlim2 : 1 ≤ cfg.limit
        · rw [admitBlock_uncond cfg _ _ hlim2 (by simp [pushEvent, hn])] at h
          dsimp only at h
          simp only [pushEvent, hbuf, hn] at h
          by_cases hsch : sched st.pollCount = true
          · rw [if_pos hsch] at h
            cases h
            refine ⟨?_, ?_⟩
            · intro n v hmem
              simp only [List.append_assoc] at hmem
              simp [hv, hbuf] at hmem
              rcases hmem with hmem | hmem
              · exact Or.inl hmem
              · exact Or.inr hmem
            · intro he
              cases he
          · rw [if_neg hsch] at h
            by_cases heos : eos = true
            · rw [if_pos heos] at h
              cases h
              refine ⟨?_, ?_⟩
              · intro n v hmem
                simp only [List.append_assoc] at hmem
                simp [hv, hbuf] at hmem
                rcases hmem with hmem | hmem
                · exact Or.inl hmem
                · exact Or.inr hmem
              · intro _
                have hrest0 : rest = [] := heos1 heos
                rw [hrest0] at hc1
                simp [List.append_assoc, chunksOf, List.filterMap_append, hc1, hc2]
            · rw [if_neg heos] at h
              have hrest : rest.length < fuel := by
                have := heos2 (by simpa using heos)
                omega
              obtain ⟨g1, g2⟩ := ih rest _ st2 e h hrest rfl rfl rfl
                (Or.inr (Or.inl hlim2))
              refine ⟨?_, ?_⟩
              · intro n v hmem
                rcases g1 n v hmem with hmem2 | hp
                · simp only [List.append_assoc] at hmem2
                  simp [hv, hbuf] at hmem2
                  rcases hmem2 with hmem2 | hmem2
                  · exact Or.inl hmem2
                  · exact Or.inr hmem2
                · exact Or.inr hp
              · intro he
                rw [g2 he]
                simp [List.append_assoc, chunksOf, List.filterMap_append, hc1, hc2]
        · have hheap : st.pruneHeap = [] := by
            rcases hH with hq | hq | hq
            · exact absurd hq hlim1
            · exact absurd hq hlim2
            · exact hq
          rw [admitBlock_emptyHeap cfg _ _ hlim1
            (by simp [pushEvent, hn]; omega) (by simp [pushEvent, hheap])] at h
          dsimp only at h
          simp only [pushEvent, hbuf, hn] at h
          cases h
          refine ⟨?_, ?_⟩
          · intro n v hmem
            simp only [List.append_assoc] at hmem
            simp [hv, hbuf] at hmem
            rcases hmem with hmem | hmem
            · exact Or.inl hmem
            · exact Or.inr hmem
          · intro he
            cases he
    · rw [if_neg hb] at h
      by_cases heos : eos = true
      · rw [if_pos heos] at h
        cases h
        refine ⟨?_, ?_⟩
        · intro n v hmem
          simp only [pushEvent, List.append_assoc] at hmem
          simp [hv, hbuf] at hmem
          rcases hmem with hmem | hmem
          · exact Or.inl hmem
          · exact Or.inr hmem
        · intro _
          have hbuf0 : buf = [] := List.length_eq_zero.1 (by omega)
          have hrest0 : rest = [] := heos1 heos
          rw [hrest0] at hc1
          rw [hbuf0] at hc2
          simp [pushEvent, chunksOf, List.filterMap_append, hc1, ← hc2]
      · rw [if_neg heos] at h
        have hrest : rest.length < fuel := by
          have := heos2 (by simpa using heos)
          omega
        have hbuf0 : buf = [] := List.length_eq_zero.1 (by omega)
        obtain ⟨g1, g2⟩ := ih rest _ st2 e h hrest
          (by simp [pushEvent, hv]) (by simp [hbuf0]) (by simp [pushEvent, hn])
          (by rcases hH with hq | hq | hq
              · exact Or.inl hq
              · exact Or.inr (Or.inl hq)
              · exact Or.inr (Or.inr (by simp [pushEvent, hq])))
        refine ⟨?_, ?_⟩
        · intro n v hmem
          rcases g1 n v hmem with hmem2 | hp
          · simp only [pushEvent, List.append_assoc] at hmem2
            simp [hv, hbuf] at hmem2
            rcases hmem2 with hmem2 | hmem2
            · exact Or.inl hmem2
            · exact Or.inr hmem2
          · exact Or.inr hp
        · intro he
          rw [g2 he]
          rw [hbuf0] at hc2
          simp [pushEvent, chunksOf, List.filterMap_append, hc1, ← hc2]

theorem accumulate_config (cfg cfg2 : SortConfig)
    (hs : cfg2.bufferedBlockSize = cfg.bufferedBlockSize)
    (hb : cfg2.bufferedBlockBytes = cfg.bufferedBlockBytes)
    (hr : cfg2.bytesPerRow = cfg.bytesPerRow) :
    ∀ (up : List (List Row)) (buf : List Row),
      accumulate cfg2 up buf = accumulate cfg up buf := by
  intro up
  induction up with
  | nil => intro buf; rfl
  | cons b rest ih =>
    intro buf
    rw [accumulate, accumulate, hs, hb, hr]
    split <;> split <;> first | exact ih _ | rfl

/-- Build bisimulation between a top-N configuration with positive limit
and the same configuration with the limit disabled: both builds consume
upstream identically, extract the same pre-sort runs, poll cancellation at
the same points, fail identically, and on success hold runs that are the
respective partial sorts of the same chunk sequence. -/
theorem buildBisim (cfg : SortConfig) (sched : Nat → Bool) (hL : 1 ≤ cfg.limit) :
    ∀ (fuel : Nat) (upstream : List (List Row)) (stL stR stL2 stR2 : BuildState)
      (eL eR : Option SortError) (cs : List (List Row)),
      sortInputLoop cfg sched fuel upstream stL = (stL2, eL) →
      sortInputLoop { cfg with limit := -1 } sched fuel upstream stR = (stR2, eR) →
      upstream.length < fuel →
      stL.bufferValid = true → stL.buffer = [] → stL.numRowsInBlock = 0 →
      stR.bufferValid = true → stR.buffer = [] →
      stL.pollCount = stR.pollCount →
      stL.sortedBlocks = cs.map (partialSortStep cfg) →
      stR.sortedBlocks = cs.map (partialSortStep { cfg with limit := -1 }) →
      (∀ c ∈ cs, c ≠ []) →
      eL = eR ∧
      (eL = none → ∃ cs2 : List (List Row), (∀ c ∈ cs2, c ≠ []) ∧
        stL2.sortedBlocks = List.map (partialSortStep cfg) cs2 ∧
        stR2.sortedBlocks
          = List.map (partialSortStep { cfg with limit := -1 }) cs2) := by
  intro fuel
  induction fuel with
  | zero =>
    intro upstream stL stR stL2 stR2 eL eR cs _ _ hfuel _ _ _ _ _ _ _ _ _
    omega
  | succ fuel ih =>
    intro upstream stL stR stL2 stR2 eL eR cs hA hB hfuel hvL hbufL hnL hvR hbufR
      hpoll hsbL hsbR hcs
    rw [sortInputLoop] at hA hB
    rw [if_neg (by simp [pushEvent, hvL])] at hA
    rw [if_neg (by simp [pushEvent, hvR])] at hB
    rcases ha : accumulate cfg upstream (pushEvent stL
      (.accumStart stL.buffer.length stL.bufferValid)).buffer with ⟨buf, rest, eos⟩
    have ha2 : accumulate { cfg with limit := -1 } upstream (pushEvent stR
        (.accumStart stR.buffer.length stR.bufferValid)).buffer = (buf, rest, eos) := by
      rw [accumulate_config cfg { cfg with limit := -1 } rfl rfl rfl]
      rw [← ha]
      simp [pushEvent, hbufL, hbufR]
    rw [ha] at hA
    rw [ha2] at hB
    dsimp only at hA hB
    obtain ⟨⟨consumed, hc1, hc2⟩, heos1, heos2⟩ :=
      accumulate_spec cfg _ _ _ _ _ ha
    by_cases hb : buf.length > 0
    · rw [if_pos hb] at hA hB
      rw [admitBlock_uncond cfg _ _ hL (by simp [pushEvent, hnL])] at hA
      rw [admitBlock_normal { cfg with limit := -1 } _ _ rfl] at hB
      dsimp only at hA hB
      simp only [pushEvent, hbufL, hnL] at hA
      simp only [pushEvent, hbufR] at hB
      rw [← hpoll] at hB
      by_cases hsch : sched stL.pollCount = true
      · rw [if_pos hsch] at hA hB
        cases hA
        cases hB
        exact ⟨rfl, fun he => by cases he⟩
      · rw [if_neg hsch] at hA hB
        by_cases heos : eos = true
        · rw [if_pos heos] at hA hB
          cases hA
          cases hB
          refine ⟨rfl, fun _ => ⟨cs ++ [buf], ?_, ?_, ?_⟩⟩
          · intro c hc
            rcases List.mem_append.1 hc with hc | hc
            · exact hcs c hc
            · rw [List.mem_singleton.1 hc]
              intro hbe
              rw [hbe] at hb
              simp at hb
          · simp [hsbL]
          · simp [hsbR]
        · rw [if_neg heos] at hA hB
          have hrest : rest.length < fuel := by
            have := heos2 (by simpa using heos)
            omega
          refine ih rest _ _ stL2 stR2 eL eR (cs ++ [buf]) hA hB hrest
            rfl rfl rfl rfl rfl (by simp [hpoll]) (by simp [hsbL]) (by simp [hsbR]) ?_
          intro c hc
          rcases List.mem_append.1 hc with hc | hc
          · exact hcs c hc
          · rw [List.mem_singleton.1 hc]
            intro hbe
            rw [hbe] at hb
            simp at hb
    · rw [if_neg hb] at hA hB
      by_cases heos : eos = true
      · rw [if_pos heos] at hA hB
        cases hA
        cases hB
        exact ⟨rfl, fun _ => ⟨cs, hcs, by simp [pushEvent, hsbL], by simp [pushEvent, hsbR]⟩⟩
      · rw [if_neg heos] at hA hB
        have hrest : rest.length < fuel := by
          have := heos2 (by simpa using heos)
          omega
        have hbuf0 : buf = [] := List.length_eq_zero.1 (by omega)
        exact ih rest _ _ stL2 stR2 eL eR cs hA hB hrest
          (by simp [pushEvent, hvL]) (by simp [hbuf0]) (by simp [pushEvent, hnL])
          (by simp [pushEvent, hvR]) (by simp [hbuf0])
          (by simp [pushEvent, hpoll]) (by simp [pushEvent, hsbL])
          (by simp [pushEvent, hsbR]) hcs

/-- A well-formed merge queue: every cursor sits on an existing row. -/
def WFQueue (q : List MergeCursor) : Prop :=
  ∀ c ∈ q, c.pos < c.rows.length

theorem sumRemaining_nil : sumRemaining [] = 0 := rfl

theorem sumRemaining_cons (c : MergeCursor) (q : List MergeCursor) :
    sumRemaining (c :: q) = (c.rows.length - c.pos) + sumRemaining q := by
  simp [sumRemaining]

theorem findMin_none_iff (desc : SortDescription) (q : List MergeCursor) :
    findMin desc q = none ↔ q = [] := by
  cases q with
  | nil => simp [findMin]
  | cons c rest =>
    rw [findMin]
    constructor
    · intro h
      rcases hr : findMin desc rest with _ | p
      · rw [hr] at h
        cases h
      · rw [hr] at h
        rcases p with ⟨j, m⟩
        dsimp only at h
        split at h <;> cases h
    · intro h
      cases h

theorem findMin_spec (desc : SortDescription) :
    ∀ (q : List MergeCursor) (i : Nat) (c : MergeCursor),
      findMin desc q = some (i, c) →
      i < q.length ∧ q.getD i ⟨[], 0⟩ = c := by
  intro q
  induction q with
  | nil =>
    intro i c h
    cases h
  | cons d rest ih =>
    intro i c h
    rw [findMin] at h
    rcases hr : findMin desc rest with _ | p
    · rw [hr] at h
      cases h
      exact ⟨by simp, rfl⟩
    · rw [hr] at h
      rcases p with ⟨j, m⟩
      dsimp only at h
      split at h
      · obtain ⟨h1, h2⟩ := ih j m hr
        cases h
        refine ⟨by simp; omega, by simpa using h2⟩
      · cases h
        exact ⟨by simp, rfl⟩

theorem advanceOrRemove_cons_succ (c : MergeCursor) (q : List MergeCursor) (j : Nat) :
    advanceOrRemove (c :: q) (j + 1) = c :: advanceOrRemove q j := by
  rw [advanceOrRemove, advanceOrRemove, List.getD_cons_succ]
  split
  · rw [List.eraseIdx_cons_succ]
  · rw [List.set_cons_succ]

theorem advanceOrRemove_sum (q : List MergeCursor) (i : Nat)
    (hwf : WFQueue q) (hi : i < q.length) :
    sumRemaining (advanceOrRemove q i) + 1 = sumRemaining q := by
  induction q generalizing i with
  | nil => cases hi
  | cons c rest ih =>
    cases i with
    | zero =>
      rw [advanceOrRemove]
      have hc : c.pos < c.rows.length := hwf c (by simp)
      simp only [List.getD_cons_zero]
      by_cases hl : c.isLast = true
      · rw [if_pos hl, List.eraseIdx_cons_zero]
        have hle : c.rows.length ≤ c.pos + 1 := by
          simpa [MergeCursor.isLast] using hl
        rw [sumRemaining_cons]
        omega
      · rw [if_neg hl, List.set_cons_zero]
        have hgt : ¬ c.rows.length ≤ c.pos + 1 := by
          simpa [MergeCursor.isLast] using hl
        rw [sumRemaining_cons, sumRemaining_cons]
        dsimp only
        omega
    | succ j =>
      have hj : j < rest.length := by simpa using hi
      have hwf2 : WFQueue rest := fun d hd => hwf d (by simp [hd])
      have hrec := ih j hwf2 hj
      rw [advanceOrRemove_cons_succ, sumRemaining_cons, sumRemaining_cons]
      omega

theorem advanceOrRemove_wf (q : List MergeCursor) (i : Nat) (hwf : WFQueue q) :
    WFQueue (advanceOrRemove q i) := by
  rw [advanceOrRemove]
  by_cases hl : (q.getD i ⟨[], 0⟩).isLast = true
  · rw [if_pos hl]
    intro d hd
    exact hwf d (List.mem_of_mem_eraseIdx hd)
  · rw [if_neg hl]
    intro d hd
    rcases List.mem_or_eq_of_mem_set hd with hd2 | hd2
    · exact hwf d hd2
    · rw [hd2]
      have hgt : ¬ (q.getD i ⟨[], 0⟩).rows.length ≤ (q.getD i ⟨[], 0⟩).pos + 1 := by
        simpa [MergeCursor.isLast] using hl
      dsimp only
      omega

theorem sumRemaining_pos (q : List MergeCursor) (hwf : WFQueue q) (hne : q ≠ []) :
    1 ≤ sumRemaining q := by
  cases q with
  | nil => exact absurd rfl hne
  | cons c rest =>
    have hc : c.pos < c.rows.length := hwf c (by simp)
    rw [sumRemaining_cons]
    omega

theorem sumRemaining_eq_zero (q : List MergeCursor) (hwf : WFQueue q)
    (h : sumRemaining q = 0) : q = [] := by
  by_cases hq : q = []
  · exact hq
  · have := sumRemaining_pos q hwf hq
    omega

theorem popList_length (desc : SortDescription) :
    ∀ (fuel : Nat) (q : List MergeCursor), WFQueue q → sumRemaining q ≤ fuel →
      (popList desc fuel q).length = sumRemaining q := by
  intro fuel
  induction fuel with
  | zero =>
    intro q hwf hle
    rw [popList]
    simp
    omega
  | succ fuel ih =>
    intro q hwf hle
    rw [popList]
    rcases hm : findMin desc q with _ | p
    · have hq : q = [] := (findMin_none_iff desc q).1 hm
      rw [hq]
      rfl
    · rcases p with ⟨i, c⟩
      obtain ⟨hi, _⟩ := findMin_spec desc q i c hm
      have hne : q ≠ [] := by
        intro hq
        rw [hq] at hm
        cases hm
      have hpos := sumRemaining_pos q hwf hne
      have hsum := advanceOrRemove_sum q i hwf hi
      have hwf2 := advanceOrRemove_wf q i hwf
      simp only [List.length_cons]
      rw [ih (advanceOrRemove q i) hwf2 (by omega)]
      omega

theorem popList_fuel_eq (desc : SortDescription) :
    ∀ (f1 f2 : Nat) (q : List MergeCursor), WFQueue q →
      sumRemaining q ≤ f1 → sumRemaining q ≤ f2 →
      popList desc f1 q = popList desc f2 q := by
  intro f1
  induction f1 with
  | zero =>
    intro f2 q hwf h1 h2
    have hq : q = [] := sumRemaining_eq_zero q hwf (by omega)
    rw [hq, popList]
    cases f2 with
    | zero => rfl
    | succ f2 =>
      rw [popList]
      rfl
  | succ f1 ih =>
    intro f2 q hwf h1 h2
    cases f2 with
    | zero =>
      have hq : q = [] := sumRemaining_eq_zero q hwf (by omega)
      rw [hq, popList, popList]
      rfl
    | succ f2 =>
      rw [popList, popList]
      rcases hm : findMin desc q with _ | p
      · rfl
      · rcases p with ⟨i, c⟩
        dsimp only
        obtain ⟨hi, _⟩ := findMin_spec desc q i c hm
        have hsum := advanceOrRemove_sum q i hwf hi
        have hwf2 := advanceOrRemove_wf q i hwf
        rw [ih f2 (advanceOrRemove q i) hwf2 (by omega) (by omega)]

/-- Characterization of one `merge_sort_read` loop run: with a positive
batch size, the loop first skips `s = min(offset, remaining)` pops, then
emits the next `m = min(batch, remaining - s)` pops, leaving a queue whose
future pop sequence is the corresponding suffix. -/
theorem mergeLoop_spec (desc : SortDescription) (batch : Nat) :
    ∀ (fuel : Nat) (q : List MergeCursor) (off : Int) (merged : List Row),
      WFQueue q → 0 ≤ off → merged.length < batch → sumRemaining q < fuel →
      ∀ s m, s = min off.toNat (sumRemaining q) →
        m = min (batch - merged.length) (sumRemaining q - s) →
      ∃ q2,
        mergeLoop desc batch fuel q off merged
          = (q2, off - s,
             merged ++ ((popList desc (sumRemaining q) q).drop s).take m) ∧
        WFQueue q2 ∧
        sumRemaining q2 = sumRemaining q - (s + m) ∧
        popList desc (sumRemaining q2) q2
          = (popList desc (sumRemaining q) q).drop (s + m) := by
  intro fuel
  induction fuel with
  | zero =>
    intro q off merged _ _ _ hfuel
    omega
  | succ fuel ih =>
    intro q off merged hwf hoff hlen hfuel s m hs hm
    rw [mergeLoop]
    rcases hfm : findMin desc q with _ | p
    · have hq : q = [] := (findMin_none_iff desc q).1 hfm
      subst hq
      have hzero : sumRemaining ([] : List MergeCursor) = 0 := rfl
      have hs0 : s = 0 := by omega
      have hm0 : m = 0 := by omega
      refine ⟨[], ?_, hwf, by omega, by simp [sumRemaining, popList]⟩
      rw [hs0, hm0]
      simp [popList]
    · rcases p with ⟨i, c⟩
      dsimp only
      obtain ⟨hi, hgd⟩ := findMin_spec desc q i c hfm
      have hne : q ≠ [] := by
        intro hq
        rw [hq] at hfm
        cases hfm
      have hK := sumRemaining_pos q hwf hne
      have hsum := advanceOrRemove_sum q i hwf hi
      have hwf2 := advanceOrRemove_wf q i hwf
      have hpop : popList desc (sumRemaining q) q
          = c.current :: popList desc (sumRemaining (advanceOrRemove q i))
              (advanceOrRemove q i) := by
        rw [← hsum, popList, hfm]
      by_cases hoff0 : off = 0
      · rw [if_pos hoff0]
        dsimp only
        by_cases hbatch : (merged ++ [c.current]).length = batch
        · rw [if_pos hbatch]
          have hs0 : s = 0 := by omega
          have hm1 : m = 1 := by
            simp only [List.length_append, List.length_cons, List.length_nil] at hbatch
            omega
          refine ⟨advanceOrRemove q i, ?_, hwf2, by omega, ?_⟩
          · rw [hs0, hm1, hpop]
            simp [hoff0]
          · rw [hpop, hs0, hm1]
            simp
        · rw [if_neg hbatch]
          have hlen2 : (merged ++ [c.current]).length < batch := by
            simp only [List.length_append, List.length_cons, List.length_nil] at hbatch ⊢
            omega
          obtain ⟨q2, heq, hwfq2, hsum2, hpop2⟩ :=
            ih (advanceOrRemove q i) off (merged ++ [c.current]) hwf2 hoff hlen2
              (by omega)
              (min off.toNat (sumRemaining (advanceOrRemove q i)))
              (min (batch - (merged ++ [c.current]).length)
                (sumRemaining (advanceOrRemove q i)
                  - min off.toNat (sumRemaining (advanceOrRemove q i))))
              rfl rfl
          have hs0 : s = 0 := by omega
          have hs0b : min off.toNat (sumRemaining (advanceOrRemove q i)) = 0 := by
            omega
          have hmeq : m = min (batch - (merged ++ [c.current]).length)
              (sumRemaining (advanceOrRemove q i)
                - min off.toNat (sumRemaining (advanceOrRemove q i))) + 1 := by
            simp only [List.length_append, List.length_cons, List.length_nil]
            omega
          refine ⟨q2, ?_, hwfq2, by omega, ?_⟩
          · rw [heq, hpop, hs0, hmeq, hs0b]
            simp [List.take_succ_cons, hoff0]
          · rw [hpop2, hpop, hs0, hmeq, hs0b]
            simp
      · rw [if_neg hoff0]
        dsimp only
        rw [if_neg (by omega : ¬ merged.length = batch)]
        have hoff1 : 1 ≤ off := by omega
        obtain ⟨q2, heq, hwfq2, hsum2, hpop2⟩ :=
          ih (advanceOrRemove q i) (off - 1) merged hwf2 (by omega) hlen (by omega)
            (min (off - 1).toNat (sumRemaining (advanceOrRemove q i)))
            (min (batch - merged.length)
              (sumRemaining (advanceOrRemove q i)
                - min (off - 1).toNat (sumRemaining (advanceOrRemove q i))))
            rfl rfl
        have hseq : s = min (off - 1).toNat (sumRemaining (advanceOrRemove q i)) + 1 := by
          omega
        have hmeq : m = min (batch - merged.length)
            (sumRemaining (advanceOrRemove q i)
              - min (off - 1).toNat (sumRemaining (advanceOrRemove q i))) := by
          omega
        refine ⟨q2, ?_, hwfq2, by omega, ?_⟩
        · rw [heq, hpop, hseq, hmeq]
          simp only [Prod.mk.injEq, List.drop_succ_cons, eq_self_iff_true,
            true_and, and_true]
          push_cast
          omega
        · rw [hpop2, hpop, hseq, hmeq]
          have hidx : min (off - 1).toNat (sumRemaining (advanceOrRemove q i)) + 1
              + min (batch - merged.length)
                (sumRemaining (advanceOrRemove q i)
                  - min (off - 1).toNat (sumRemaining (advanceOrRemove q i)))
              = (min (off - 1).toNat (sumRemaining (advanceOrRemove q i))
                + min (batch - merged.length)
                  (sumRemaining (advanceOrRemove q i)
                    - min (off - 1).toNat (sumRemaining (advanceOrRemove q i)))) + 1 := by
            omega
          rw [hidx, List.drop_succ_cons]

/-- The rows the `reached_limit` wrapper lets through from a stream:
everything when the limit is disabled, else the first `limit - returned`
rows. -/
def limitClamp (l r : Int) (xs : List Row) : List Row :=
  if l = -1 then xs else xs.take (l - r).toNat

/-- Collapse of the drain loop on the merge path: with at least two runs,
a positive batch size and a well-formed queue, the concatenation of all
`get_next` deliveries equals the full pop sequence of the heap, after
dropping `offset` rows and clamping to the limit. -/
theorem drainLoop_merge_spec (cfg : SortConfig) :
    ∀ (fuel : Nat) (st : OperatorState),
      2 ≤ st.sortedBlocks.length → WFQueue st.queue → 0 ≤ st.offset →
      1 ≤ cfg.batchSize → sumRemaining st.queue + 2 ≤ fuel →
      drainLoop cfg fuel st
        = limitClamp st.limit st.numRowsReturned
            ((popList (descOf cfg) (sumRemaining st.queue) st.queue).drop
              st.offset.toNat) := by
  intro fuel
  induction fuel with
  | zero =>
    intro st _ _ _ _ hf
    omega
  | succ fuel ih =>
    intro st hsb hwf hoff hbatch hfuel
    rw [drainLoop]
    have hne : st.sortedBlocks.isEmpty = false := by
      cases hsb2 : st.sortedBlocks
      · rw [hsb2] at hsb
        simp at hsb
      · rfl
    have hne1 : ¬ st.sortedBlocks.length = 1 := by omega
    obtain ⟨q2, hml, hwf2, hsum2, hpop2⟩ :=
      mergeLoop_spec (descOf cfg) cfg.batchSize (sumRemaining st.queue + 1)
        st.queue st.offset [] hwf hoff (by simpa using hbatch) (by omega)
        (min st.offset.toNat (sumRemaining st.queue))
        (min cfg.batchSize
          (sumRemaining st.queue - min st.offset.toNat (sumRemaining st.queue)))
        rfl (by simp)
    rw [List.nil_append] at hml
    have hP : (popList (descOf cfg) (sumRemaining st.queue) st.queue).length
        = sumRemaining st.queue := popList_length (descOf cfg) _ _ hwf (le_refl _)
    set P := popList (descOf cfg) (sumRemaining st.queue) st.queue with hPdef
    set s := min st.offset.toNat (sumRemaining st.queue) with hsdef
    set m := min cfg.batchSize (sumRemaining st.queue - s) with hmdef
    have hmlen : ((P.drop s).take m).length = m := by
      rw [List.length_take, List.length_drop, hP]
      omega
    by_cases hm0 : m = 0
    · have hr : reachedLimit st.limit st.numRowsReturned [] true
          = ((reachedLimit st.limit st.numRowsReturned [] true).1, [], true) := by
        rw [reachedLimit]
        split <;> simp
      have hgn : getNextBlock cfg st
          = ({ st with
                queue := q2
                offset := st.offset - (s : Int)
                numRowsReturned := (reachedLimit st.limit st.numRowsReturned [] true).1 },
             [], true, GetNextPath.mergePath) := by
        rw [getNextBlock, if_neg (by simp [hne]), if_neg hne1, hml]
        dsimp only
        rw [if_pos (by rw [hmlen, hm0]), hr]
      rw [hgn]
      dsimp only
      rw [if_pos rfl]
      have hexhaust : sumRemaining st.queue ≤ st.offset.toNat := by omega
      have hdrop : P.drop st.offset.toNat = [] := by
        apply List.drop_eq_nil_of_le
        rw [hP]
        exact hexhaust
      rw [hdrop, limitClamp]
      split <;> simp
    · by_cases hcond : st.limit ≠ -1 ∧
          st.numRowsReturned + (((P.drop s).take m) : List Row).length ≥ st.limit
      · have hr : reachedLimit st.limit st.numRowsReturned ((P.drop s).take m) false
            = (st.limit,
               ((P.drop s).take m).take (st.limit - st.numRowsReturned).toNat,
               true) := by
          rw [reachedLimit, if_pos hcond]
        have hgn : getNextBlock cfg st
            = ({ st with
                  queue := q2
                  offset := st.offset - (s : Int)
                  numRowsReturned := st.limit },
               ((P.drop s).take m).take (st.limit - st.numRowsReturned).toNat,
               true, GetNextPath.mergePath) := by
          rw [getNextBlock, if_neg (by simp [hne]), if_neg hne1, hml]
          dsimp only
          rw [if_neg (by rw [hmlen]; exact hm0), hr]
        rw [hgn]
        dsimp only
        rw [if_pos rfl]
        obtain ⟨hlne, hge⟩ := hcond
        rw [limitClamp, if_neg hlne]
        have hs_eq : s = st.offset.toNat := by omega
        rw [List.take_take]
        rw [hmlen] at hge
        have hmin : min (st.limit - st.numRowsReturned).toNat m
            = (st.limit - st.numRowsReturned).toNat := by
          omega
        rw [hmin, hs_eq]
      · have hr : reachedLimit st.limit st.numRowsReturned ((P.drop s).take m) false
            = (st.numRowsReturned + (((P.drop s).take m) : List Row).length,
               (P.drop s).take m, false) := by
          rw [reachedLimit, if_neg hcond]
        have hgn : getNextBlock cfg st
            = ({ st with
                  queue := q2
                  offset := st.offset - (s : Int)
                  numRowsReturned :=
                    st.numRowsReturned + (((P.drop s).take m) : List Row).length },
               (P.drop s).take m, false, GetNextPath.mergePath) := by
          rw [getNextBlock, if_neg (by simp [hne]), if_neg hne1, hml]
          dsimp only
          rw [if_neg (by rw [hmlen]; exact hm0), hr]
        rw [hgn]
        dsimp only
        rw [if_neg (by simp)]
        have hrec := ih { st with
            queue := q2
            offset := st.offset - (s : Int)
            numRowsReturned :=
              st.numRowsReturned + (((P.drop s).take m) : List Row).length }
          (by simpa using hsb) (by simpa using hwf2) (by dsimp only; omega)
          hbatch (by dsimp only; omega)
        dsimp only at hrec
        rw [hrec, hpop2, hmlen]
        have hs_eq : s = st.offset.toNat := by omega
        have hoff2 : (st.offset - (s : Int)).toNat = 0 := by omega
        rw [hoff2, List.drop_zero]
        push_neg at hcond
        rw [limitClamp, limitClamp]
        have hdd : (P.drop s).drop m = P.drop (s + m) := by
          rw [List.drop_drop]
        by_cases hl : st.limit = -1
        · rw [if_pos hl, if_pos hl]
          rw [← hs_eq]
          calc List.take m (P.drop s) ++ P.drop (s + m)
              = List.take m (P.drop s) ++ (P.drop s).drop m := by rw [hdd]
            _ = P.drop s := List.take_append_drop m (P.drop s)
        · rw [if_neg hl, if_neg hl]
          have hlt := hcond hl
          rw [hmlen] at hlt
          rw [← hs_eq]
          have htk : (st.limit - st.numRowsReturned).toNat
              = m + (st.limit - (st.numRowsReturned + (m : Int))).toNat := by
            omega
          rw [htk, List.take_add]
          congr 1
          rw [hdd]

theorem getD_of_take_eq :
    ∀ (K p : Nat) (xs ys : List Row), xs.take K = ys.take K → p < K →
      xs.getD p [] = ys.getD p [] := by
  intro K
  induction K with
  | zero =>
    intro p xs ys _ hp
    omega
  | succ K ih =>
    intro p xs ys htake hp
    cases xs with
    | nil =>
      cases ys with
      | nil => rfl
      | cons y ys =>
        rw [List.take_nil, List.take_succ_cons] at htake
        cases htake
    | cons x xs =>
      cases ys with
      | nil =>
        rw [List.take_nil, List.take_succ_cons] at htake
        cases htake
      | cons y ys =>
        rw [List.take_succ_cons, List.take_succ_cons] at htake
        obtain ⟨hxy, htl⟩ := List.cons.injEq _ _ _ _ ▸ htake
        cases p with
        | zero =>
          rw [List.getD_cons_zero, List.getD_cons_zero]
          exact hxy
        | succ p =>
          rw [List.getD_cons_succ, List.getD_cons_succ]
          exact ih p xs ys htl (by omega)

/-- The pairwise relation between the two builds' cursors: equal position,
equal run length, and equal first `K` rows, with enough slack that the next
`n` pops stay inside the agreed region. -/
def CursorAgree (K n : Nat) (cL cR : MergeCursor) : Prop :=
  cL.pos = cR.pos ∧ cL.rows.length = cR.rows.length ∧
    cL.rows.take K = cR.rows.take K ∧ cL.pos + n ≤ K

theorem cursorAgree_weaken (K n : Nat) (cL cR : MergeCursor)
    (h : CursorAgree K (n + 1) cL cR) : CursorAgree K n cL cR := by
  obtain ⟨h1, h2, h3, h4⟩ := h
  exact ⟨h1, h2, h3, by omega⟩

theorem cursorAgree_current (K n : Nat) (cL cR : MergeCursor)
    (h : CursorAgree K (n + 1) cL cR) : cL.current = cR.current := by
  obtain ⟨h1, h2, h3, h4⟩ := h
  rw [MergeCursor.current, MergeCursor.current, h1]
  exact getD_of_take_eq K cR.pos cL.rows cR.rows h3 (by omega)

theorem findMin_congr (desc : SortDescription) :
    ∀ (qL qR : List MergeCursor),
      List.Forall₂ (fun a b => a.current = b.current) qL qR →
      (findMin desc qL = none ∧ findMin desc qR = none) ∨
      (∃ i cL cR, findMin desc qL = some (i, cL) ∧ findMin desc qR = some (i, cR) ∧
        cL.current = cR.current) := by
  intro qL qR hrel
  induction hrel with
  | nil => exact Or.inl ⟨rfl, rfl⟩
  | cons hab hrest ih =>
    rename_i a b tL tR
    rcases ih with ⟨hn1, hn2⟩ | ⟨i, cL, cR, hs1, hs2, hcur⟩
    · rw [findMin, hn1]
      rw [findMin, hn2]
      exact Or.inr ⟨0, a, b, rfl, rfl, hab⟩
    · rw [findMin, hs1]
      rw [findMin, hs2]
      dsimp only
      rw [hcur, hab]
      split
      · exact Or.inr ⟨i + 1, cL, cR, rfl, rfl, hcur⟩
      · exact Or.inr ⟨0, a, b, rfl, rfl, hab⟩

theorem forall₂_advanceOrRemove (K n : Nat) :
    ∀ (qL qR : List MergeCursor) (i : Nat),
      List.Forall₂ (CursorAgree K (n + 1)) qL qR →
      List.Forall₂ (CursorAgree K n) (advanceOrRemove qL i) (advanceOrRemove qR i) := by
  intro qL qR i hrel
  induction hrel generalizing i with
  | nil =>
    simp only [advanceOrRemove, List.getD_nil]
    split
    · simp [List.eraseIdx]
    · simp [List.set]
  | cons hab hrest ih =>
    rename_i a b tL tR
    cases i with
    | zero =>
      obtain ⟨h1, h2, h3, h4⟩ := hab
      rw [advanceOrRemove, advanceOrRemove]
      simp only [List.getD_cons_zero]
      have hlast : a.isLast = b.isLast := by
        rw [MergeCursor.isLast, MergeCursor.isLast, h1, h2]
      by_cases hl : a.isLast = true
      · rw [if_pos hl, if_pos (hlast ▸ hl), List.eraseIdx_cons_zero,
          List.eraseIdx_cons_zero]
        exact hrest.imp (cursorAgree_weaken K n)
      · rw [if_neg hl, if_neg (hlast ▸ hl), List.set_cons_zero, List.set_cons_zero]
        refine List.Forall₂.cons ⟨by simpa using h1, by simpa using h2,
          by simpa using h3, by simp; omega⟩ (hrest.imp (cursorAgree_weaken K n))
    | succ j =>
      rw [advanceOrRemove_cons_succ, advanceOrRemove_cons_succ]
      exact List.Forall₂.cons (cursorAgree_weaken K n a b hab) (ih j)

/-- Pop-prefix agreement: cursors agreeing on their first `K` rows produce
the same first `n ≤ K`-bounded pops. -/
theorem popList_take_agree (desc : SortDescription) (K : Nat) :
    ∀ (fuel n : Nat) (qL qR : List MergeCursor),
      List.Forall₂ (CursorAgree K n) qL qR →
      (popList desc fuel qL).take n = (popList desc fuel qR).take n := by
  intro fuel
  induction fuel with
  | zero =>
    intro n qL qR _
    rw [popList, popList]
  | succ fuel ih =>
    intro n qL qR hrel
    cases n with
    | zero => rw [List.take_zero, List.take_zero]
    | succ n =>
      have hcur : List.Forall₂ (fun a b => a.current = b.current) qL qR :=
        hrel.imp (fun a b hab => cursorAgree_current K n a b hab)
      rcases findMin_congr desc qL qR hcur with ⟨hn1, hn2⟩ | ⟨i, cL, cR, hs1, hs2, hcc⟩
      · rw [popList, popList, hn1, hn2]
      · rw [popList, popList, hs1, hs2]
        dsimp only
        rw [List.take_succ_cons, List.take_succ_cons, hcc]
        rw [ih n (advanceOrRemove qL i) (advanceOrRemove qR i)
          (forall₂_advanceOrRemove K n qL qR i hrel)]

theorem sortWithLimit_take_le (desc : SortDescription) (k lim : Nat) (b : List Row)
    (hk : k ≤ lim) (hlim : lim ≠ 0) :
    (sortWithLimit desc lim b).take k = (sortRows desc b).take k := by
  have h1 : (sortWithLimit desc lim b).take k
      = ((sortWithLimit desc lim b).take lim).take k := by
    rw [List.take_take]
    congr 1
    omega
  rw [h1, sortWithLimit_take desc lim b hlim, List.take_take]
  congr 1
  omega

theorem sortLimitArg_zero_pos (l : Int) (h0 : 0 ≤ l) (h1 : l < 2 ^ 64) :
    sortLimitArg 0 l = l.toNat := by
  rw [sortLimitArg, Int.zero_add, Int.emod_eq_of_lt h0 h1]

theorem sortLimitArg_zero_neg1 : sortLimitArg 0 (-1) = 2 ^ 64 - 1 := by decide

theorem partialSortStep_length (cfg : SortConfig) (c : List Row) :
    (partialSortStep cfg c).length
      = (if cfg.needMaterializeTuple then materializeTuple cfg.sortTupleSlots c
          else c).length := by
  rw [partialSortStep, sortWithLimit_length]

theorem materializeTuple_length (slots : List Nat) (c : List Row) :
    (materializeTuple slots c).length = c.length := by
  rw [materializeTuple, List.length_map]

/-- `reached_limit` never clears an already-set `eos`. -/
theorem reachedLimit_eos_true (l r : Int) (b : List Row) :
    (reachedLimit l r b true).2.2 = true := by
  rw [reachedLimit]
  split <;> rfl

/-- `get_next` on a single-run state: the fast path slices away the first
`offset` rows of the run, swaps the rest into the caller block, reports
`eos`, routes the result through `reached_limit`, and never consults the
merge heap. -/
theorem getNextBlock_single (cfg : SortConfig) (st : OperatorState) (b : List Row)
    (hsb : st.sortedBlocks = [b]) :
    getNextBlock cfg st
      = ({ st with
            sortedBlocks := [[]]
            numRowsReturned := (reachedLimit st.limit st.numRowsReturned
              (b.drop st.offset.toNat) true).1 },
         (reachedLimit st.limit st.numRowsReturned (b.drop st.offset.toNat) true).2.1,
         (reachedLimit st.limit st.numRowsReturned (b.drop st.offset.toNat) true).2.2,
         GetNextPath.fastPath) := by
  rw [getNextBlock, hsb]
  rw [if_neg (by simp)]
  rw [if_pos (by simp)]
  simp only [List.headD_cons]
  have hb1 : (if st.offset ≠ 0 then b.drop st.offset.toNat else b)
      = b.drop st.offset.toNat := by
    split
    · rfl
    · rename_i hoff
      simp only [ne_eq, not_not] at hoff
      rw [hoff]
      simp
  rw [hb1]

/-- With no admitted run, the probe phase delivers nothing (the empty-runs
branch of `get_next` reports `eos` at once). -/
theorem drain_empty_runs (cfg : SortConfig) (bst : BuildState)
    (h : cfg.limit = -1 ∨ 1 ≤ cfg.limit) (hsb : bst.sortedBlocks = []) :
    drainModel cfg (buildMergeTree cfg bst) = [] := by
  rw [drainModel, buildMergeTree, hsb]
  simp only [List.length_nil]
  rw [if_neg (by omega), sumRemaining_nil, drainLoop, getNextBlock]
  simp only [List.isEmpty_nil, if_true, reachedLimit]
  split_ifs <;> simp_all

/-- With exactly one admitted run and offset zero, the probe phase
delivers exactly what `reached_limit` leaves of the run. -/
theorem drain_single_run (cfg : SortConfig) (bst : BuildState) (b : List Row)
    (h0 : cfg.offset = 0) (hsb : bst.sortedBlocks = [b]) :
    drainModel cfg (buildMergeTree cfg bst)
      = (reachedLimit cfg.limit 0 b true).2.1 := by
  rw [drainModel, buildMergeTree, hsb]
  simp only [List.length_cons, List.length_nil]
  rw [if_neg (by omega), sumRemaining_nil, drainLoop]
  rw [getNextBlock_single cfg _ b rfl]
  dsimp only
  rw [h0]
  have hdrop : b.drop (0 : Int).toNat = b := by simp
  rw [hdrop]
  rw [if_pos (reachedLimit_eos_true cfg.limit 0 b)]

/-- A block no longer than the limit argument is fully sorted even under a
limit hint. -/
theorem sortWithLimit_of_le (desc : SortDescription) (lim : Nat) (b : List Row)
    (h : b.length ≤ lim) : sortWithLimit desc lim b = sortRows desc b := by
  rw [sortWithLimit, if_pos (Or.inr h)]

/-- Dropping the limit leaves the sort description unchanged. -/
theorem descOf_noLimit (cfg : SortConfig) :
    descOf { cfg with limit := -1 } = descOf cfg := rfl

/-- Dropping the limit leaves the materialization flag unchanged. -/
theorem needMat_noLimit (cfg : SortConfig) :
    ({ cfg with limit := -1 } : SortConfig).needMaterializeTuple
      = cfg.needMaterializeTuple := rfl

/-- Dropping the limit leaves the tuple slots unchanged. -/
theorem slots_noLimit (cfg : SortConfig) :
    ({ cfg with limit := -1 } : SortConfig).sortTupleSlots = cfg.sortTupleSlots := rfl

/-- Dropping the limit leaves the offset unchanged. -/
theorem offset_noLimit (cfg : SortConfig) :
    ({ cfg with limit := -1 } : SortConfig).offset = cfg.offset := rfl

/-- Dropping the limit sets the limit field to the no-limit sentinel. -/
theorem limit_noLimit (cfg : SortConfig) :
    ({ cfg with limit := -1 } : SortConfig).limit = -1 := rfl

/-- When the whole block fits under the limit argument, `partial_sort`
degenerates to a full sort of the (possibly materialized) block. -/
theorem partialSortStep_full (cfg : SortConfig) (c : List Row)
    (h : c.length ≤ sortLimitArg cfg.offset cfg.limit) :
    partialSortStep cfg c
      = sortRows (descOf cfg)
          (if cfg.needMaterializeTuple then materializeTuple cfg.sortTupleSlots c
            else c) := by
  rw [partialSortStep]
  have hlen2 : (if cfg.needMaterializeTuple then materializeTuple cfg.sortTupleSlots c
      else c).length = c.length := by
    split
    · exact materializeTuple_length _ _
    · rfl
  exact sortWithLimit_of_le _ _ _ (by rw [hlen2]; exact h)

/-- Cursorwise agreement forces the two queues to hold the same number of
remaining rows. -/
theorem sumRemaining_forall₂ (K n : Nat) (qL qR : List MergeCursor)
    (h : List.Forall₂ (CursorAgree K n) qL qR) :
    sumRemaining qL = sumRemaining qR := by
  induction h with
  | nil => rfl
  | cons hab _ ih =>
    rename_i a b tL tR
    rw [sumRemaining_cons, sumRemaining_cons, ih, hab.1, hab.2.1]

/-- Fresh cursors over runs that agree on their first `K` rows and their
lengths satisfy `CursorAgree K K` pairwise. -/
theorem forall₂_initCursors (K : Nat) (f g : List Row → List Row) :
    ∀ (cs : List (List Row)),
      (∀ c ∈ cs, (f c).length = (g c).length ∧ (f c).take K = (g c).take K) →
      List.Forall₂ (CursorAgree K K)
        (List.map (fun b => ({ rows := b, pos := 0 } : MergeCursor)) (List.map f cs))
        (List.map (fun b => ({ rows := b, pos := 0 } : MergeCursor)) (List.map g cs)) := by
  intro cs
  induction cs with
  | nil =>
    intro _
    exact List.Forall₂.nil
  | cons c cs ih =>
    intro h
    rw [List.map_cons, List.map_cons, List.map_cons, List.map_cons]
    refine List.Forall₂.cons ?_ (ih fun c2 hc2 => h c2 (List.mem_cons_of_mem c hc2))
    obtain ⟨h1, h2⟩ := h c (List.mem_cons_self c cs)
    refine ⟨rfl, h1, h2, ?_⟩
    show 0 + K ≤ K
    omega

/-- With `offset = 0` and a positive in-range limit, the sorted run the
limited build produces agrees with the unlimited build's run on length and
on the first `limit` rows: the limit hint only reorders the tail. -/
theorem partialSortStep_take_agree (cfg : SortConfig) (c : List Row)
    (hoff : cfg.offset = 0) (hL1 : 1 ≤ cfg.limit) (hL2 : cfg.limit < 2 ^ 63) :
    (partialSortStep cfg c).length
        = (partialSortStep { cfg with limit := -1 } c).length ∧
      (partialSortStep cfg c).take cfg.limit.toNat
        = (partialSortStep { cfg with limit := -1 } c).take cfg.limit.toNat := by
  constructor
  · rw [partialSortStep_length, partialSortStep_length]
  · show (sortWithLimit (descOf cfg) (sortLimitArg cfg.offset cfg.limit) _).take _
      = (sortWithLimit (descOf cfg) (sortLimitArg cfg.offset (-1)) _).take _
    rw [hoff, sortLimitArg_zero_pos cfg.limit (by omega) (by omega),
      sortLimitArg_zero_neg1]
    rw [sortWithLimit_take_le (descOf cfg) cfg.limit.toNat cfg.limit.toNat _
      le_rfl (by omega)]
    rw [sortWithLimit_take_le (descOf cfg) cfg.limit.toNat (2 ^ 64 - 1) _
      (by omega) (by omega)]

/-- Single-run case of the top-N equivalence: what `reached_limit` leaves of
the limited build's single run is the `limit`-row head of the unlimited
build's single run. -/
theorem single_run_take (cfg : SortConfig) (c : List Row)
    (hoff : cfg.offset = 0) (hL1 : 1 ≤ cfg.limit) (hL2 : cfg.limit < 2 ^ 63) :
    (reachedLimit cfg.limit 0 (partialSortStep cfg c) true).2.1
      = (partialSortStep { cfg with limit := -1 } c).take cfg.limit.toNat := by
  obtain ⟨hlen, htake⟩ := partialSortStep_take_agree cfg c hoff hL1 hL2
  rw [reachedLimit]
  split
  · dsimp only
    rw [Int.sub_zero]
    exact htake
  · rename_i hcond
    dsimp only
    have hlt : ((partialSortStep cfg c).length : Int) < cfg.limit := by
      rcases not_and_or.mp hcond with h | h
      · exact absurd (by omega) h
      · omega
    have hclen : (c.length : Int) < cfg.limit := by
      have h1 := partialSortStep_length cfg c
      have h2 := materializeTuple_length cfg.sortTupleSlots c
      split at h1 <;> omega
    have hEq : partialSortStep cfg c = partialSortStep { cfg with limit := -1 } c := by
      rw [partialSortStep_full cfg c
        (by rw [hoff, sortLimitArg_zero_pos cfg.limit (by omega) (by omega)]; omega)]
      rw [partialSortStep_full { cfg with limit := -1 } c (by
        rw [offset_noLimit, limit_noLimit, hoff, sortLimitArg_zero_neg1]
        omega)]
      rw [descOf_noLimit, needMat_noLimit, slots_noLimit]
    rw [← hEq]
    rw [List.take_of_length_le (by omega)]

/-- Merge-path case of the top-N equivalence: with the same chunk list
feeding both builds, the limited drain is the `limit`-row head of the
unlimited drain. -/
theorem drain_take_eq (cfg : SortConfig) (bstL bstR : BuildState)
    (cs2 : List (List Row))
    (hoff : cfg.offset = 0) (hL1 : 1 ≤ cfg.limit) (hL2 : cfg.limit < 2 ^ 63)
    (hbatch : 1 ≤ cfg.batchSize)
    (hne2 : ∀ c ∈ cs2, c ≠ [])
    (hsbL : bstL.sortedBlocks = List.map (partialSortStep cfg) cs2)
    (hsbR : bstR.sortedBlocks
      = List.map (partialSortStep { cfg with limit := -1 }) cs2) :
    drainModel cfg (buildMergeTree cfg bstL)
      = (drainModel { cfg with limit := -1 }
          (buildMergeTree { cfg with limit := -1 } bstR)).take cfg.limit.toNat := by
  have hagree : ∀ c ∈ cs2,
      (partialSortStep cfg c).length
          = (partialSortStep { cfg with limit := -1 } c).length ∧
        (partialSortStep cfg c).take cfg.limit.toNat
          = (partialSortStep { cfg with limit := -1 } c).take cfg.limit.toNat :=
    fun c _ => partialSortStep_take_agree cfg c hoff hL1 hL2
  match cs2, hne2, hsbL, hsbR, hagree with
  | [], hne2, hsbL, hsbR, hagree =>
    rw [drain_empty_runs cfg bstL (Or.inr hL1) (by rw [hsbL]; rfl),
      drain_empty_runs { cfg with limit := -1 } bstR (Or.inl rfl) (by rw [hsbR]; rfl)]
    rw [List.take_nil]
  | [c], hne2, hsbL, hsbR, hagree =>
    rw [drain_single_run cfg bstL (partialSortStep cfg c) hoff (by rw [hsbL]; rfl)]
    rw [drain_single_run { cfg with limit := -1 } bstR
      (partialSortStep { cfg with limit := -1 } c) hoff (by rw [hsbR]; rfl)]
    rw [show reachedLimit (-1) 0 (partialSortStep { cfg with limit := -1 } c) true
        = (0 + ((partialSortStep { cfg with limit := -1 } c).length : Int),
            partialSortStep { cfg with limit := -1 } c, true) from by
      rw [reachedLimit, if_neg (by simp)]]
    exact single_run_take cfg c hoff hL1 hL2
  | c1 :: c2 :: rest, hne2, hsbL, hsbR, hagree =>
    have hlenL : (buildMergeTree cfg bstL).sortedBlocks.length
        = rest.length + 2 := by
      rw [buildMergeTree]
      dsimp only
      rw [hsbL]
      simp
    have hforall : List.Forall₂ (CursorAgree cfg.limit.toNat cfg.limit.toNat)
        (buildMergeTree cfg bstL).queue
        (buildMergeTree { cfg with limit := -1 } bstR).queue := by
      rw [buildMergeTree, buildMergeTree]
      dsimp only
      rw [hsbL, hsbR]
      rw [if_pos (by simp), if_pos (by simp)]
      exact forall₂_initCursors cfg.limit.toNat (partialSortStep cfg)
        (partialSortStep { cfg with limit := -1 }) (c1 :: c2 :: rest)
        (fun c hc => hagree c hc)
    have hwfL : WFQueue (buildMergeTree cfg bstL).queue := by
      rw [buildMergeTree]
      dsimp only
      rw [hsbL, if_pos (by simp)]
      intro cur hcur
      rw [List.mem_map] at hcur
      obtain ⟨b, hb, hbcur⟩ := hcur
      rw [List.mem_map] at hb
      obtain ⟨c, hc, hbc⟩ := hb
      subst hbc
      subst hbcur
      dsimp only
      have hcl : c ≠ [] := hne2 c hc
      have := partialSortStep_length cfg c
      have hmlen := materializeTuple_length cfg.sortTupleSlots c
      have hcpos : 0 < c.length := List.length_pos.mpr hcl
      split at this <;> omega
    have hwfR : WFQueue (buildMergeTree { cfg with limit := -1 } bstR).queue := by
      rw [buildMergeTree]
      dsimp only
      rw [hsbR, if_pos (by simp)]
      intro cur hcur
      rw [List.mem_map] at hcur
      obtain ⟨b, hb, hbcur⟩ := hcur
      rw [List.mem_map] at hb
      obtain ⟨c, hc, hbc⟩ := hb
      subst hbc
      subst hbcur
      dsimp only
      have hcl : c ≠ [] := hne2 c hc
      have := partialSortStep_length { cfg with limit := -1 } c
      have hmlen := materializeTuple_length
        (SortConfig.sortTupleSlots { cfg with limit := -1 }) c
      have hcpos : 0 < c.length := List.length_pos.mpr hcl
      split at this <;> omega
    have hL := drainLoop_merge_spec cfg
      (sumRemaining (buildMergeTree cfg bstL).queue + 2)
      (buildMergeTree cfg bstL)
      (by omega) hwfL (by show (0 : Int) ≤ cfg.offset; omega)
      hbatch le_rfl
    have hlenR : (buildMergeTree { cfg with limit := -1 } bstR).sortedBlocks.length
        = rest.length + 2 := by
      rw [buildMergeTree]
      dsimp only
      rw [hsbR]
      simp
    have hR := drainLoop_merge_spec { cfg with limit := -1 }
      (sumRemaining (buildMergeTree { cfg with limit := -1 } bstR).queue + 2)
      (buildMergeTree { cfg with limit := -1 } bstR)
      (by omega) hwfR
      (by show (0 : Int) ≤ cfg.offset; omega)
      hbatch le_rfl
    rw [drainModel, hL, drainModel, hR]
    have hoffL : (buildMergeTree cfg bstL).offset = 0 := hoff
    have hoffR : (buildMergeTree { cfg with limit := -1 } bstR).offset = 0 := hoff
    rw [hoffL, hoffR]
    rw [show ((0 : Int)).toNat = 0 from rfl, List.drop_zero, List.drop_zero]
    have hlimL : (buildMergeTree cfg bstL).limit = cfg.limit := rfl
    have hlimR : (buildMergeTree { cfg with limit := -1 } bstR).limit = -1 := rfl
    have hnrL : (buildMergeTree cfg bstL).numRowsReturned = 0 := rfl
    have hnrR : (buildMergeTree { cfg with limit := -1 } bstR).numRowsReturned = 0 := rfl
    rw [hlimL, hlimR, hnrL, hnrR]
    rw [limitClamp, limitClamp, if_neg (by omega), if_pos rfl, Int.sub_zero]
    have hdesc : descOf { cfg with limit := -1 } = descOf cfg := rfl
    rw [hdesc]
    rw [sumRemaining_forall₂ cfg.limit.toNat cfg.limit.toNat _ _ hforall]
    exact popList_take_agree (descOf cfg) cfg.limit.toNat
      (sumRemaining (buildMergeTree { cfg with limit := -1 } bstR).queue)
      cfg.limit.toNat _ _ hforall

/-- C5: top-N equivalence, amended.  With `offset = 0`, a positive
representable limit and a positive batch size, the limited operator emits
exactly the first `limit` rows of the unlimited operator's output, and both
fail identically.  (The spec's claim quantifies over every `L >= 0`; at
`L = 0` it fails, see the counterexample.) -/
theorem C5_topn_equivalence (cfg : SortConfig) (sched : Nat → Bool)
    (stream : List (List Row))
    (hoff : cfg.offset = 0) (hL1 : 1 ≤ cfg.limit) (hL2 : cfg.limit < 2 ^ 63)
    (hbatch : 1 ≤ cfg.batchSize) :
    operatorOutput cfg sched stream
      = Except.map (List.take cfg.limit.toNat)
          (operatorOutput { cfg with limit := -1 } sched stream) := by
  rcases hA : buildModel cfg sched stream with ⟨bstL, eL⟩
  rcases hB : buildModel { cfg with limit := -1 } sched stream with ⟨bstR, eR⟩
  rw [buildModel] at hA hB
  obtain ⟨heq, hrest⟩ := buildBisim cfg sched hL1 (stream.length + 1) stream
    initBuildState initBuildState bstL bstR eL eR [] hA hB (by omega)
    rfl rfl rfl rfl rfl rfl rfl rfl (by simp)
  rw [operatorOutput, operatorOutput, buildModel, hA, buildModel, hB]
  cases eL with
  | some e =>
    cases heq
    rfl
  | none =>
    cases heq
    obtain ⟨cs2, hne2, hsbL2, hsbR2⟩ := hrest rfl
    show Except.ok (drainModel cfg (buildMergeTree cfg bstL))
      = Except.map (List.take cfg.limit.toNat)
          (Except.ok (drainModel { cfg with limit := -1 }
            (buildMergeTree { cfg with limit := -1 } bstR)))
    rw [drain_take_eq cfg bstL bstR cs2 hoff hL1 hL2 hbatch hne2 hsbL2 hsbR2]
    rfl

/-- Equality of operator results is decidable, so concrete runs can be
checked by evaluation. -/
instance : DecidableEq (Except SortError (List Row)) := fun a b =>
  match a, b with
  | .ok x, .ok y => decidable_of_iff (x = y) (by simp)
  | .error x, .error y => decidable_of_iff (x = y) (by simp)
  | .ok _, .error _ => isFalse (by simp)
  | .error _, .ok _ => isFalse (by simp)

/-- A plain-sort configuration with a non-zero offset: one ascending
nulls-last key on column 0, `offset = 2`, `limit = -1`. -/
def cfg1 : SortConfig :=
  { offset := 2, limit := -1, bufferedBlockSize := 1048576
  , bufferedBlockBytes := 67108864, bytesPerRow := 1, batchSize := 4096
  , orderingColumns := [0], isAscOrder := [true], nullsFirst := [false]
  , needMaterializeTuple := false, sortTupleSlots := [] }

/-- A query that is never cancelled. -/
def schedF : Nat → Bool := fun _ => false

/-- A query that is cancelled from the start. -/
def schedT : Nat → Bool := fun _ => true

/-- One upstream block of five rows in strictly decreasing order. -/
def stream1 : List (List Row) := [[[some 5],[some 4],[some 3],[some 2],[some 1]]]

/-- A top-N configuration with `offset = 1`, `limit = 1` and a one-row run
threshold, so each upstream block becomes its own run. -/
def cfg2 : SortConfig :=
  { cfg1 with offset := 1, limit := 1, bufferedBlockSize := 1 }

/-- Three single-row upstream blocks. -/
def stream2 : List (List Row) := [[[some 1]],[[some 2]],[[some 3]]]

/-- A `limit = 0` top-N configuration with a one-row run threshold. -/
def cfg7 : SortConfig := { cfg1 with offset := 0, limit := 0, bufferedBlockSize := 1 }

/-- One single-row upstream block. -/
def stream7 : List (List Row) := [[[some 1]]]

/-- `offset = 0, limit = 0`: the left side of the spec's top-N equivalence
at `L = 0`. -/
def cfg5L : SortConfig := { cfg1 with offset := 0, limit := 0 }

/-- `offset = 0`, no limit: the right side of the spec's top-N
equivalence. -/
def cfg5R : SortConfig := { cfg1 with offset := 0, limit := -1 }

/-- One single-row upstream block for the `L = 0` comparison. -/
def stream5 : List (List Row) := [[[some 1]]]

/-- A multi-run top-N configuration: `offset = 0`, `limit = 2`, one-row
runs, one-row delivery batches. -/
def cfgM : SortConfig :=
  { cfg1 with offset := 0, limit := 2, bufferedBlockSize := 1, batchSize := 1 }

/-- Three single-row upstream blocks out of order. -/
def streamM : List (List Row) := [[[some 3]],[[some 1]],[[some 2]]]

/-- An operator state holding exactly one sorted run of three rows, with
`offset = 1`. -/
def fastState : OperatorState :=
  { sortedBlocks := [[[some 1],[some 2],[some 3]]], queue := []
  , offset := 1, limit := -1, numRowsReturned := 0 }

/-- C1: the claim that the operator always emits rows in non-decreasing
order is refuted.  With `offset = 2, limit = -1`, `sort_input` passes
`_offset + _limit` (as `UInt64`: the value 1) to `sort_block`, so the run
is only partially sorted, and `get_next` then drops the first two rows of
it: on the five-row decreasing stream the operator succeeds and emits
`[4], [3], [2]` — not sorted ascending. -/
theorem C1_unsorted_emission :
    operatorOutput cfg1 schedF stream1
      = Except.ok [[some 4],[some 3],[some 2]] ∧
    isSortedUnder (descOf cfg1) [[some 4],[some 3],[some 2]] = false :=
  ⟨by decide, by decide⟩

/-- C2: amended admission rule.  The code's test is
`_num_rows_in_block < _limit`, not `rows held < offset + limit`, and
because the counter is incremented from a moved-from block it is 0 at
every admission (`admitUncond`'s second component records the counter):
with a positive limit every extracted run is admitted through the
unconditional branch, and the compare/discard path never runs. -/
theorem C2_admission_amended (cfg : SortConfig) (sched : Nat → Bool)
    (stream : List (List Row)) (hl : 1 ≤ cfg.limit) :
    (∀ n c, BuildEvent.admitUncond n c ∈ (buildModel cfg sched stream).1.trace →
      c = 0) ∧
    (buildModel cfg sched stream).1.trace.countP isDiscardEv = 0 ∧
    (buildModel cfg sched stream).1.trace.countP isComparedEv = 0 := by
  rcases h : buildModel cfg sched stream with ⟨bst, e⟩
  dsimp only
  rw [buildModel] at h
  obtain ⟨hn, hp, hd, hcmp, hsum, hmem⟩ := buildPosLimitInvariant cfg sched hl
    (stream.length + 1) stream initBuildState bst e h (by omega) rfl rfl rfl
  refine ⟨?_, hd.trans rfl, hcmp.trans rfl⟩
  intro n c hc
  rcases hmem n c hc with hmem2 | hz
  · simp [initBuildState] at hmem2
  · exact hz

/-- C2 witness: the amended admission rule at a concrete top-N build. -/
theorem C2_admission_witness :
    (∀ n c, BuildEvent.admitUncond n c ∈ (buildModel cfg2 schedF stream2).1.trace →
      c = 0) ∧
    (buildModel cfg2 schedF stream2).1.trace.countP isDiscardEv = 0 ∧
    (buildModel cfg2 schedF stream2).1.trace.countP isComparedEv = 0 :=
  C2_admission_amended cfg2 schedF stream2 (by decide)

/-- C2 counterexample: with `offset = 1, limit = 1` and three one-row runs,
the third run is admitted unconditionally (the trace records it, with two
rows already held) although `2 < offset + limit` is false — the claimed
"admit unconditionally iff rows held < offset + limit" does not hold. -/
theorem C2_admission_counterexample :
    (buildModel cfg2 schedF stream2).1.trace.count (BuildEvent.admitUncond 2 0) = 1 ∧
    ¬((2 : Int) < cfg2.offset + cfg2.limit) :=
  ⟨by decide, by decide⟩

/-- C3: in top-N mode with a positive limit the counter
`_num_rows_in_block` is incremented by `block.rows()` only after the block
was moved away (so by 0) and never on the other branch: it stays 0 for the
whole build, `_num_rows_in_block < _limit` always holds, every extracted
run is admitted through the unconditional branch, and the
`totally_greater` pruning comparison is never executed. -/
theorem C3_counter_stays_zero (cfg : SortConfig) (sched : Nat → Bool)
    (stream : List (List Row)) (hl : 1 ≤ cfg.limit) :
    (buildModel cfg sched stream).1.numRowsInBlock = 0 ∧
    (buildModel cfg sched stream).1.trace.countP isPruneEv = 0 ∧
    (buildModel cfg sched stream).1.trace.countP isUncondEv
      = (buildModel cfg sched stream).1.trace.countP isExtractEv := by
  rcases h : buildModel cfg sched stream with ⟨bst, e⟩
  dsimp only
  rw [buildModel] at h
  obtain ⟨hn, hp, hd, hcmp, hsum, hmem⟩ := buildPosLimitInvariant cfg sched hl
    (stream.length + 1) stream initBuildState bst e h (by omega) rfl rfl rfl
  refine ⟨hn, hp.trans rfl, ?_⟩
  have h0 : initBuildState.trace.countP isExtractEv = 0 := rfl
  have h1 : initBuildState.trace.countP isUncondEv = 0 := rfl
  omega

/-- C3 witness: the invariant at a concrete top-N build. -/
theorem C3_counter_stays_zero_witness :
    (buildModel cfg2 schedF stream2).1.numRowsInBlock = 0 ∧
    (buildModel cfg2 schedF stream2).1.trace.countP isPruneEv = 0 ∧
    (buildModel cfg2 schedF stream2).1.trace.countP isUncondEv
      = (buildModel cfg2 schedF stream2).1.trace.countP isExtractEv :=
  C3_counter_stays_zero cfg2 schedF stream2 (by decide)

/-- C4: the claim that the limit hint is passed only in top-N mode and the
whole run is fully sorted in plain mode is refuted.  `partial_sort` passes
`_offset + _limit` unconditionally: with `limit = -1` and `offset = 2` the
`UInt64` argument is 1, a constraining hint, and the resulting run is not
fully sorted. -/
theorem C4_plain_mode_limit_hint :
    cfg1.limit = -1 ∧
    sortLimitArg cfg1.offset cfg1.limit = 1 ∧
    partialSortStep cfg1 [[some 5],[some 4],[some 3],[some 2],[some 1]]
      = [[some 1],[some 5],[some 4],[some 3],[some 2]] ∧
    isSortedUnder (descOf cfg1)
      (partialSortStep cfg1 [[some 5],[some 4],[some 3],[some 2],[some 1]]) = false :=
  ⟨by decide, by decide, by decide, by decide⟩

/-- C5 witness: the amended top-N equivalence at a concrete three-run
build with `limit = 2`. -/
theorem C5_topn_equivalence_witness :
    operatorOutput cfgM schedF streamM
      = Except.map (List.take cfgM.limit.toNat)
          (operatorOutput { cfgM with limit := -1 } schedF streamM) :=
  C5_topn_equivalence cfgM schedF streamM (by decide) (by decide) (by decide)
    (by decide)

/-- C5 counterexample: at `L = 0` the claimed equivalence fails.  With
`offset = 0, limit = 0` the build calls `top()` on the empty pruning heap
(undefined behaviour, modelled as an internal error), while
`take 0` of the unlimited run is `ok []`. -/
theorem C5_topn_counterexample :
    cfg5L.offset = 0 ∧ cfg5L.limit = 0 ∧
    operatorOutput cfg5L schedF stream5 = Except.error SortError.internal ∧
    Except.map (List.take (0 : Nat)) (operatorOutput cfg5R schedF stream5)
      = Except.ok ([] : List Row) :=
  ⟨by decide, by decide, by decide, by decide⟩

/-- C6: every accumulation iteration starts with a fresh, valid, empty
buffer (the trace records the buffer state at each iteration start), and
on a successful build the concatenation of all extracted runs is exactly
the upstream rows — no row of one run reappears in a later run. -/
theorem C6_buffer_reset (cfg : SortConfig) (sched : Nat → Bool)
    (stream : List (List Row)) :
    (∀ n v, BuildEvent.accumStart n v ∈ (buildModel cfg sched stream).1.trace →
      n = 0 ∧ v = true) ∧
    ((buildModel cfg sched stream).2 = none →
      (chunksOf (buildModel cfg sched stream).1.trace).flatten = stream.flatten) := by
  rcases h : buildModel cfg sched stream with ⟨bst, e⟩
  dsimp only
  rw [buildModel] at h
  obtain ⟨hacc, hfl⟩ := buildBufferInvariant cfg sched (stream.length + 1) stream
    initBuildState bst e h (by omega) rfl rfl rfl (Or.inr (Or.inr rfl))
  constructor
  · intro n v hnv
    rcases hacc n v hnv with h2 | h2
    · simp [initBuildState] at h2
    · exact h2
  · intro he
    exact (hfl he).trans rfl

/-- C7: amended cancellation discipline.  With a well-formed limit the
build polls the cancellation flag exactly once per extracted run, and a
build under a cancelled query either reports the cancellation error or
extracted no run at all.  (The claim's "including discarded runs" is
unfalsifiable on the admission side — no run is ever discarded — but the
claim fails at `limit = 0`, see the counterexample.) -/
theorem C7_cancel_amended (cfg : SortConfig) (sched : Nat → Bool)
    (stream : List (List Row)) (hl : cfg.limit = -1 ∨ 1 ≤ cfg.limit) :
    (buildModel cfg sched stream).1.trace.countP isPollEv
      = (buildModel cfg sched stream).1.trace.countP isExtractEv ∧
    ((∀ k, sched k = true) →
      (buildModel cfg sched stream).2 = some SortError.cancelled ∨
        (buildModel cfg sched stream).1.trace.countP isExtractEv = 0) := by
  rcases h : buildModel cfg sched stream with ⟨bst, e⟩
  dsimp only
  rw [buildModel] at h
  obtain ⟨hn, hsum, hcan⟩ := buildCancelInvariant cfg sched hl
    (stream.length + 1) stream initBuildState bst e h (by omega) rfl rfl rfl
  constructor
  · have h0 : initBuildState.trace.countP isExtractEv = 0 := rfl
    have h1 : initBuildState.trace.countP isPollEv = 0 := rfl
    omega
  · intro hs
    rcases hcan hs with h2 | h2
    · exact Or.inl h2
    · right
      have h0 : initBuildState.trace.countP isExtractEv = 0 := rfl
      omega

/-- C7 witness: the amended cancellation discipline at a concrete
top-N build. -/
theorem C7_cancel_witness :
    (buildModel cfg2 schedF stream2).1.trace.countP isPollEv
      = (buildModel cfg2 schedF stream2).1.trace.countP isExtractEv ∧
    ((∀ k, schedF k = true) →
      (buildModel cfg2 schedF stream2).2 = some SortError.cancelled ∨
        (buildModel cfg2 schedF stream2).1.trace.countP isExtractEv = 0) :=
  C7_cancel_amended cfg2 schedF stream2 (Or.inr (by decide))

/-- C7 counterexample: with `limit = 0` a run is extracted under a
cancelled query, yet the build returns an internal error (empty-heap
`top()`) without ever polling the cancellation flag — the claimed "checked
once per extracted run, so an extraction after cancellation returns the
cancellation error" fails. -/
theorem C7_cancel_counterexample :
    (buildModel cfg7 schedT stream7).2 = some SortError.internal ∧
    (buildModel cfg7 schedT stream7).1.trace.countP isExtractEv = 1 ∧
    (buildModel cfg7 schedT stream7).1.trace.countP isPollEv = 0 :=
  ⟨by decide, by decide, by decide⟩

/-- C8: with exactly one sorted run, `get_next` takes the fast path: the
heap is never consulted (the queue is untouched), the delivered block is
the single run minus its first `offset` rows (as filtered by
`reached_limit`), and `eos` is reported on that same call. -/
theorem C8_single_run_fast_path (cfg : SortConfig) (st : OperatorState)
    (b : List Row) (hsb : st.sortedBlocks = [b]) :
    (getNextBlock cfg st).2.2.2 = GetNextPath.fastPath ∧
    (getNextBlock cfg st).2.1
      = (reachedLimit st.limit st.numRowsReturned (b.drop st.offset.toNat)
          true).2.1 ∧
    (getNextBlock cfg st).2.2.1 = true ∧
    (getNextBlock cfg st).1.queue = st.queue := by
  rw [getNextBlock_single cfg st b hsb]
  exact ⟨rfl, rfl, reachedLimit_eos_true _ _ _, rfl⟩

/-- C8 witness: the fast path on a concrete single-run state. -/
theorem C8_single_run_fast_path_witness :
    (getNextBlock cfg1 fastState).2.2.2 = GetNextPath.fastPath ∧
    (getNextBlock cfg1 fastState).2.1
      = (reachedLimit fastState.limit fastState.numRowsReturned
          (([[some 1],[some 2],[some 3]] : List Row).drop
            fastState.offset.toNat) true).2.1 ∧
    (getNextBlock cfg1 fastState).2.2.1 = true ∧
    (getNextBlock cfg1 fastState).1.queue = fastState.queue :=
  C8_single_run_fast_path cfg1 fastState [[some 1],[some 2],[some 3]] rfl

/-- C9: for every sort key in range, the comparator description holds
`direction = +1` for ascending and `-1` for descending, and
`nulls_direction` is `-direction` when `nulls_first` and `direction`
otherwise. -/
theorem C9_nulls_direction (cols : List Nat) (asc nf : List Bool) (i : Nat)
    (hi : i < cols.length) :
    ((buildSortDescription cols asc nf).getD i
        { column_number := 0, direction := 0, nulls_direction := 0 }).direction
        = (if asc.getD i true then 1 else -1) ∧
      ((buildSortDescription cols asc nf).getD i
        { column_number := 0, direction := 0, nulls_direction := 0 }).nulls_direction
        = (if nf.getD i false
            then -((buildSortDescription cols asc nf).getD i
              { column_number := 0, direction := 0, nulls_direction := 0 }).direction
            else ((buildSortDescription cols asc nf).getD i
              { column_number := 0, direction := 0, nulls_direction := 0 }).direction) := by
  have h1 : (buildSortDescription cols asc nf).getD i
      { column_number := 0, direction := 0, nulls_direction := 0 }
      = { column_number := cols.getD i 0
        , direction := if asc.getD i true then 1 else -1
        , nulls_direction :=
            if nf.getD i false then -(if asc.getD i true then 1 else -1)
            else (if asc.getD i true then 1 else -1) } := by
    rw [buildSortDescription, List.getD_eq_getElem?_getD, List.getElem?_map,
      List.getElem?_range hi]
    rfl
  rw [h1]
  exact ⟨rfl, rfl⟩

/-- C9 witness: the nulls-direction formula at a concrete descending
nulls-first key. -/
theorem C9_nulls_direction_witness :
    ((buildSortDescription [5] [false] [true]).getD 0
        { column_number := 0, direction := 0, nulls_direction := 0 }).direction
        = (if ([false] : List Bool).getD 0 true then 1 else -1) ∧
      ((buildSortDescription [5] [false] [true]).getD 0
        { column_number := 0, direction := 0, nulls_direction := 0 }).nulls_direction
        = (if ([true] : List Bool).getD 0 false
            then -((buildSortDescription [5] [false] [true]).getD 0
              { column_number := 0, direction := 0, nulls_direction := 0 }).direction
            else ((buildSortDescription [5] [false] [true]).getD 0
              { column_number := 0, direction := 0, nulls_direction := 0 }).direction) :=
  C9_nulls_direction [5] [false] [true] 0 (by decide)

/-- C10: the legacy row-batch `get_next` overload returns `NotSupported`,
reports `eos`, and leaves the operator state untouched, for every state. -/
theorem C10_row_batch_not_supported (st : OperatorState) :
    getNextRowBatch st = (st, true, Except.error SortError.notSupported) := rfl
